import Mathlib

/-!
# Verification of the single-occurrence text-patch engine (`internal/llm/tools/edit.go`)

Shallow embedding of the Go source.  A Go `string` is an immutable sequence of bytes, here a
list of natural numbers (each byte a value below 256).  A `rune` produced by ranging over a
string is a natural number (its code point).  Go `int` values that can be negative (`-1`
results, byte offsets computed from `utf8.RuneLen`) are integers.  A run-time panic (index or
slice out of range) is the `none` result of an `Option`.
-/

namespace Cap

/-- A Go string: a sequence of bytes. -/
abbrev GoString := List Nat

/-! ## Go standard library: `unicode/utf8` and `unicode` -/

/-- The replacement character `utf8.RuneError`, U+FFFD. -/
def RuneError : Nat := 0xFFFD

/-- The table `acceptRanges` indexed through `first`: the lowest second byte accepted after the
lead byte `b0`. -/
def acceptLo (b0 : Nat) : Nat := if b0 = 0xE0 then 0xA0 else if b0 = 0xF0 then 0x90 else 0x80

/-- The table `acceptRanges` indexed through `first`: the highest second byte accepted after the
lead byte `b0`. -/
def acceptHi (b0 : Nat) : Nat := if b0 = 0xED then 0x9F else if b0 = 0xF4 then 0x8F else 0xBF

/-- The decoding step of `utf8.DecodeRuneInString`, which is also the step of a `range` loop
over a string: the rune at the head of the string together with its width in bytes.  Invalid or
truncated encodings yield `(RuneError, 1)`; the empty string yields `(RuneError, 0)`.  The lead
byte selects the size and the accepted range of the second byte (tables `first` and
`acceptRanges`); the other continuation bytes lie in `0x80..0xBF`. -/
def decodeRune : GoString → Nat × Nat
  | [] => (RuneError, 0)
  | b0 :: rest =>
    if b0 < 0x80 then (b0, 1)
    else if b0 < 0xC2 then (RuneError, 1)
    else if b0 < 0xE0 then
      match rest with
      | b1 :: _ =>
        if 0x80 ≤ b1 ∧ b1 ≤ 0xBF then ((b0 % 32) * 64 + b1 % 64, 2) else (RuneError, 1)
      | [] => (RuneError, 1)
    else if b0 < 0xF0 then
      match rest with
      | b1 :: b2 :: _ =>
        if acceptLo b0 ≤ b1 ∧ b1 ≤ acceptHi b0 then
          if 0x80 ≤ b2 ∧ b2 ≤ 0xBF then
            ((b0 % 16) * 4096 + (b1 % 64) * 64 + b2 % 64, 3)
          else (RuneError, 1)
        else (RuneError, 1)
      | _ => (RuneError, 1)
    else if b0 < 0xF5 then
      match rest with
      | b1 :: b2 :: b3 :: _ =>
        if acceptLo b0 ≤ b1 ∧ b1 ≤ acceptHi b0 then
          if 0x80 ≤ b2 ∧ b2 ≤ 0xBF then
            if 0x80 ≤ b3 ∧ b3 ≤ 0xBF then
              ((b0 % 8) * 262144 + (b1 % 64) * 4096 + (b2 % 64) * 64 + b3 % 64, 4)
            else (RuneError, 1)
          else (RuneError, 1)
        else (RuneError, 1)
      | _ => (RuneError, 1)
    else (RuneError, 1)

/-- The function `utf8.AppendRune` (used by `strings.Builder.WriteRune`): the UTF-8 encoding of a
rune; surrogates and values above U+10FFFF are encoded as `RuneError`. -/
def encodeRune (r : Nat) : GoString :=
  if r ≤ 0x7F then [r]
  else if r ≤ 0x7FF then [0xC0 + r / 64, 0x80 + r % 64]
  else if 0x10FFFF < r ∨ (0xD800 ≤ r ∧ r ≤ 0xDFFF) then [0xEF, 0xBF, 0xBD]
  else if r ≤ 0xFFFF then [0xE0 + r / 4096, 0x80 + (r / 64) % 64, 0x80 + r % 64]
  else [0xF0 + r / 262144, 0x80 + (r / 4096) % 64, 0x80 + (r / 64) % 64, 0x80 + r % 64]

/-- The function `utf8.RuneLen`: the number of bytes of the encoding of a rune, `-1` when the
rune is not a valid value to encode. -/
def RuneLen (r : Nat) : Int :=
  if r ≤ 0x7F then 1
  else if r ≤ 0x7FF then 2
  else if 0xD800 ≤ r ∧ r ≤ 0xDFFF then -1
  else if r ≤ 0xFFFF then 3
  else if r ≤ 0x10FFFF then 4
  else -1

/-- The function `unicode.IsSpace`: the Latin-1 spaces and the other code points with the
`White_Space` property. -/
def IsSpace (r : Nat) : Bool :=
  if r ≤ 0xFF then
    r = 0x09 ∨ r = 0x0A ∨ r = 0x0B ∨ r = 0x0C ∨ r = 0x0D ∨ r = 0x20 ∨ r = 0x85 ∨ r = 0xA0
  else
    r = 0x1680 ∨ (0x2000 ≤ r ∧ r ≤ 0x200A) ∨ r = 0x2028 ∨ r = 0x2029 ∨ r = 0x202F ∨
      r = 0x205F ∨ r = 0x3000

/-- The function `utf8.RuneStart`: the byte is not a continuation byte. -/
def RuneStart (b : Nat) : Bool := !(0x80 ≤ b && b < 0xC0)

/-- The runes visited by `for _, r := range s`, starting `skip` bytes into `s`: decode at the
current byte, then move on by the decoded width. -/
def rangeAux : Nat → GoString → List Nat
  | _, [] => []
  | 0, b :: rest => (decodeRune (b :: rest)).1 :: rangeAux ((decodeRune (b :: rest)).2 - 1) rest
  | k + 1, _ :: rest => rangeAux k rest

/-- The runes of `for _, r := range s`, which are also the elements of `[]rune(s)`. -/
def rangeRunes (s : GoString) : List Nat := rangeAux 0 s

/-- The function `utf8.ValidString`, from `skip` bytes into `s`: no decoding step hits an
invalid or truncated encoding. -/
def validAux : Nat → GoString → Bool
  | _, [] => true
  | 0, b :: rest =>
    if (decodeRune (b :: rest)).2 = 1 ∧ 0x80 ≤ b then false
    else validAux ((decodeRune (b :: rest)).2 - 1) rest
  | k + 1, _ :: rest => validAux k rest

/-- The function `utf8.ValidString`. -/
def ValidString (s : GoString) : Bool := validAux 0 s

/-- The bytes of a string literal. -/
def ofString (s : String) : GoString := s.data.flatMap fun ch => encodeRune ch.toNat

/-- A Go slice expression `s[a:b]`; `none` is the out-of-range panic. -/
def goSlice (s : GoString) (a b : Int) : Option GoString :=
  if 0 ≤ a ∧ a ≤ b ∧ b ≤ s.length then some ((s.drop a.toNat).take (b.toNat - a.toNat)) else none

/-- A Go index expression `xs[i]` with an `int` index; `none` is the out-of-range panic. -/
def goIndex {α : Type} (xs : List α) (i : Int) : Option α :=
  if i < 0 then none else xs[i.toNat]?

/-! ## `edit.go`: the position-mapped normalizer and the unique matcher -/

/-- The struct `RuneInfo`: the byte span of a rune in the original content. -/
structure RuneInfo where
  Start : Int
  End : Int
  deriving DecidableEq, Repr

/-- The function `isWhitespaceExceptNewline`. -/
def isWhitespaceExceptNewline (r : Nat) : Bool :=
  IsSpace r && r != 0x0A && r != 0x0D

/-- The loop of `buildIndexMapEnhanced` over the runes of the content, with the builder, the
rune infos and the running byte index as state. -/
def buildIndexMapLoop : List Nat → GoString → List RuneInfo → Int → GoString × List RuneInfo
  | [], sb, runeInfos, _ => (sb, runeInfos)
  | r :: rs, sb, runeInfos, byteIdx =>
    if !isWhitespaceExceptNewline r then
      buildIndexMapLoop rs (sb ++ encodeRune r)
        (runeInfos ++ [{ Start := byteIdx, End := byteIdx + RuneLen r }]) (byteIdx + RuneLen r)
    else
      buildIndexMapLoop rs sb runeInfos (byteIdx + RuneLen r)

/-- The function `buildIndexMapEnhanced`. -/
def buildIndexMapEnhanced (content : GoString) : GoString × List RuneInfo :=
  buildIndexMapLoop (rangeRunes content) [] [] 0

/-- The loop of `removeWhitespace` over the runes of the string. -/
def removeWhitespaceLoop : List Nat → GoString → GoString
  | [], sb => sb
  | r :: rs, sb =>
    if !isWhitespaceExceptNewline r then removeWhitespaceLoop rs (sb ++ encodeRune r)
    else removeWhitespaceLoop rs sb

/-- The function `removeWhitespace`. -/
def removeWhitespace (s : GoString) : GoString :=
  removeWhitespaceLoop (rangeRunes s) []

/-- The inner loop `for j := range pattern` of `findRuneIndex` and `findLastRuneIndex`, from
position `j` of the pattern on: `some true` when `found` stays true, `some false` after the
`break`, `none` when `runes[i+j]` is out of range. -/
def matchLoop (runes : List Nat) (i : Nat) : List Nat → Nat → Option Bool
  | [], _ => some true
  | p :: ps, j =>
    match runes[i + j]? with
    | none => none
    | some x => if x ≠ p then some false else matchLoop runes i ps (j + 1)

/-- The outer loop of `findRuneIndex`: `i` counts up, `k` iterations remain. -/
def findRuneIndexLoop (runes pattern : List Nat) : Nat → Nat → Option Int
  | 0, _ => some (-1)
  | k + 1, i =>
    match matchLoop runes i pattern 0 with
    | none => none
    | some true => some (i : Int)
    | some false => findRuneIndexLoop runes pattern k (i + 1)

/-- The function `findRuneIndex`: the loop runs for `0 ≤ i ≤ len(runes) - len(pattern)`. -/
def findRuneIndex (runes pattern : List Nat) : Option Int :=
  if pattern.length = 0 then some (-1)
  else findRuneIndexLoop runes pattern (runes.length + 1 - pattern.length) 0

/-- The outer loop of `findLastRuneIndex`: `i` counts down from `k - 1` to `0`. -/
def findLastRuneIndexLoop (runes pattern : List Nat) : Nat → Option Int
  | 0 => some (-1)
  | k + 1 =>
    match matchLoop runes k pattern 0 with
    | none => none
    | some true => some (k : Int)
    | some false => findLastRuneIndexLoop runes pattern k

/-- The function `findLastRuneIndex`: the loop runs for `len(runes) - len(pattern) ≥ i ≥ 0`. -/
def findLastRuneIndex (runes pattern : List Nat) : Option Int :=
  if pattern.length = 0 then some (-1)
  else findLastRuneIndexLoop runes pattern (runes.length + 1 - pattern.length)

/-- The function `findMatchIgnoringWhitespaceEnhanced`; `none` is a run-time panic. -/
def findMatchIgnoringWhitespaceEnhanced (content pattern : GoString) :
    Option (Int × Int × Bool) :=
  let strippedContent := (buildIndexMapEnhanced content).1
  let runeInfos := (buildIndexMapEnhanced content).2
  let strippedPattern := removeWhitespace pattern
  if strippedPattern.length = 0 then some (0, 0, false)
  else
    let runes := rangeRunes strippedContent
    let patternRunes := rangeRunes strippedPattern
    match findRuneIndex runes patternRunes with
    | none => none
    | some firstRuneIdx =>
      if firstRuneIdx = -1 then some (0, 0, false)
      else
        match findLastRuneIndex runes patternRunes with
        | none => none
        | some lastRuneIdx =>
          if firstRuneIdx ≠ lastRuneIdx then some (0, 0, false)
          else
            match goIndex runeInfos firstRuneIdx,
              goIndex runeInfos (firstRuneIdx + patternRunes.length - 1) with
            | some first, some last => some (first.Start, last.End, true)
            | _, _ => none

/-! ## Go standard library: `strings` -/

/-- The table `asciiSpace` of package `strings`. -/
def asciiSpace (c : Nat) : Bool :=
  c = 0x09 ∨ c = 0x0A ∨ c = 0x0B ∨ c = 0x0C ∨ c = 0x0D ∨ c = 0x20

/-- The backward scan of `utf8.DecodeLastRuneInString` for the start of the last rune:
`for start--; start >= lim; start-- { if RuneStart(s[start]) { break } }`, entered with the
decremented `start`; it runs at most `UTFMax` times. -/
def scanBack (s : GoString) (lim : Int) : Nat → Int → Int
  | 0, start => start
  | k + 1, start =>
    if start ≥ lim then
      if RuneStart (s.getD start.toNat 0) then start else scanBack s lim k (start - 1)
    else start

/-- The function `utf8.DecodeLastRuneInString`: the last rune of the string and its width. -/
def DecodeLastRuneInString (s : GoString) : Nat × Nat :=
  if s.length = 0 then (RuneError, 0)
  else if s.getD (s.length - 1) 0 < 0x80 then (s.getD (s.length - 1) 0, 1)
  else
    let lim : Int := if (s.length : Int) - 4 < 0 then 0 else (s.length : Int) - 4
    let start0 := scanBack s lim 4 ((s.length : Int) - 2)
    let start : Int := if start0 < 0 then 0 else start0
    if start + ((decodeRune (s.drop start.toNat)).2 : Int) ≠ (s.length : Int) then (RuneError, 1)
    else decodeRune (s.drop start.toNat)

/-- The loop of `strings.lastIndexFunc`: `for i := len(s); i > 0; ...`; every round lowers `i`
by the width of the decoded rune, so `i` rounds are enough. -/
def lastIndexFuncLoop (s : GoString) (f : Nat → Bool) (truth : Bool) : Nat → Nat → Int
  | 0, _ => -1
  | fuel + 1, i =>
    if i > 0 then
      if f (DecodeLastRuneInString (s.take i)).1 == truth then
        ((i - (DecodeLastRuneInString (s.take i)).2 : Nat) : Int)
      else lastIndexFuncLoop s f truth fuel (i - (DecodeLastRuneInString (s.take i)).2)
    else -1

/-- The function `strings.lastIndexFunc`. -/
def lastIndexFunc (s : GoString) (f : Nat → Bool) (truth : Bool) : Int :=
  lastIndexFuncLoop s f truth s.length s.length

/-- The function `strings.TrimRightFunc`. -/
def TrimRightFunc (s : GoString) (f : Nat → Bool) : GoString :=
  if 0 ≤ lastIndexFunc s f false ∧ 0x80 ≤ s.getD (lastIndexFunc s f false).toNat 0 then
    s.take ((lastIndexFunc s f false).toNat +
      (decodeRune (s.drop (lastIndexFunc s f false).toNat)).2)
  else s.take (lastIndexFunc s f false + 1).toNat

/-- The loop of `strings.indexFunc`, `for i, r := range s`, at byte index `i` with `skip` bytes
of the current rune still to pass. -/
def indexFuncLoop (f : Nat → Bool) (truth : Bool) : Nat → Nat → GoString → Int
  | _, _, [] => -1
  | 0, i, b :: rest =>
    if f (decodeRune (b :: rest)).1 == truth then (i : Int)
    else indexFuncLoop f truth ((decodeRune (b :: rest)).2 - 1) (i + 1) rest
  | k + 1, i, _ :: rest => indexFuncLoop f truth k (i + 1) rest

/-- The function `strings.indexFunc`. -/
def indexFunc (s : GoString) (f : Nat → Bool) (truth : Bool) : Int :=
  indexFuncLoop f truth 0 0 s

/-- The function `strings.TrimLeftFunc`. -/
def TrimLeftFunc (s : GoString) (f : Nat → Bool) : GoString :=
  if indexFunc s f false = -1 then [] else s.drop (indexFunc s f false).toNat

/-- The function `strings.TrimFunc`. -/
def TrimFunc (s : GoString) (f : Nat → Bool) : GoString :=
  TrimRightFunc (TrimLeftFunc s f) f

/-- The second loop of `strings.TrimSpace`, over the reversed bytes of `s[start:stop]`: look
for the first ASCII non-space byte from the end, falling back to `TrimRightFunc` at a non-ASCII
byte. -/
def trimSpaceStopLoop : List Nat → GoString
  | [] => []
  | c :: rev =>
    if 0x80 ≤ c then TrimRightFunc (c :: rev).reverse IsSpace
    else if asciiSpace c = false then (c :: rev).reverse
    else trimSpaceStopLoop rev

/-- The function `strings.TrimSpace`: the first loop looks for the first ASCII non-space byte,
falling back to `TrimFunc` at a non-ASCII byte. -/
def TrimSpace : GoString → GoString
  | [] => []
  | c :: rest =>
    if 0x80 ≤ c then TrimFunc (c :: rest) IsSpace
    else if asciiSpace c = false then trimSpaceStopLoop (c :: rest).reverse
    else TrimSpace rest

/-- The function `strings.HasPrefix`. -/
def HasPrefix (s pre : GoString) : Bool :=
  pre.length ≤ s.length && s.take pre.length == pre

/-- The function `strings.TrimPrefix`. -/
def TrimPrefix (s pre : GoString) : GoString :=
  if HasPrefix s pre then s.drop pre.length else s

/-! ## `edit.go`: the sanitizer -/

/-- The list `ngList` of `cleanOldNewString`: backslash, colon, semicolon. -/
def ngList : List GoString := [[0x5C], [0x3A], [0x3B]]

/-- The loop `for _, l := range ngList` of `cleanOldNewString`. -/
def cleanLoop : List GoString → GoString → GoString
  | [], str => str
  | l :: ls, str => cleanLoop ls (TrimSpace (TrimPrefix str l))

/-- The function `cleanOldNewString`. -/
def cleanOldNewString (str : GoString) : GoString :=
  cleanLoop ngList (TrimSpace str)

/-! ## The world of a patch transaction

The transactions of `edit.go` act on the file system, the process-wide read and write
timestamps, the permission arbiter and the history service.  The world records their state,
the answers the external services give, and the trace of the effects performed so far. -/

/-- The struct `EditParams`. -/
structure EditParams where
  FilePath : String
  OldString : GoString
  NewString : GoString
  deriving DecidableEq, Repr

/-- The struct `EditPermissionsParams`. -/
structure EditPermissionsParams where
  FilePath : String
  Diff : String
  deriving DecidableEq, Repr

/-- The struct `EditResponseMetadata`. -/
structure EditResponseMetadata where
  Diff : String
  Additions : Int
  Removals : Int
  deriving DecidableEq, Repr

/-- Modelled from the spec: the request `permission.CreatePermissionRequest` passed to the
permission arbiter (section 6), declared outside `edit.go`; the fields are those that
`edit.go` fills in. -/
structure CreatePermissionRequest where
  SessionID : String
  Path : String
  ToolName : String
  Action : String
  Description : String
  Params : EditPermissionsParams
  deriving DecidableEq, Repr

/-- Modelled from the spec: the struct `ToolResponse` (a textual result, flagged when it is an
error result, with optional metadata), declared outside `edit.go`; `ToolResponse{}` is the
default value. -/
structure ToolResponse where
  Content : String := ""
  IsError : Bool := false
  Metadata : Option EditResponseMetadata := none
  deriving DecidableEq, Repr

/-- Modelled from the spec: the constructor `NewTextResponse`, declared outside `edit.go`. -/
def NewTextResponse (content : String) : ToolResponse := { Content := content }

/-- Modelled from the spec: the constructor `NewTextErrorResponse` of a textual error result,
declared outside `edit.go`. -/
def NewTextErrorResponse (content : String) : ToolResponse :=
  { Content := content, IsError := true }

/-- Modelled from the spec: the function `WithResponseMetadata`, declared outside `edit.go`,
which attaches the structured result to a response. -/
def WithResponseMetadata (response : ToolResponse) (metadata : EditResponseMetadata) :
    ToolResponse :=
  { response with Metadata := some metadata }

/-- The Go errors that the transactions return: `permission.ErrorPermissionDenied` and the
errors built with `fmt.Errorf`, named after their message. -/
inductive GoError where
  | ErrorPermissionDenied
  | failedToAccessFile
  | failedToCreateParentDirectories
  | sessionIDAndMessageIDRequired
  | failedToWriteFile
  | failedToReadFile
  | errorCreatingFileHistory
  deriving DecidableEq, Repr

/-- The part of `os.FileInfo` that `edit.go` reads.  A `time.Time` is an integer count of time
units since the zero time, so that `IsZero` is equality with `0` and `After` is `>`. -/
structure FileInfo where
  IsDir : Bool
  ModTime : Int
  deriving DecidableEq, Repr

/-- The result of `os.Stat`: the file information, an error for which `os.IsNotExist` holds,
or another error. -/
inductive StatResult where
  | ok (info : FileInfo)
  | notExist
  | fail
  deriving DecidableEq, Repr

/-- A node of the file system. -/
structure FileNode where
  IsDir : Bool
  Content : GoString
  ModTime : Int
  deriving DecidableEq, Repr

/-- Modelled from the spec: the record `history.File` of the history service (section 6),
declared outside `edit.go`; its zero value has empty content. -/
structure HistoryFile where
  SessionID : String := ""
  Path : String := ""
  Content : GoString := []
  deriving DecidableEq, Repr

/-- The effects a transaction performs, in the order of the trace. -/
inductive Event where
  | stat (path : String)
  | mkdirAll (dir : String) (ok : Bool)
  | readFile (path : String) (ok : Bool)
  | permissionRequest (req : CreatePermissionRequest) (granted : Bool)
  | writeFile (path : String) (content : GoString) (ok : Bool)
  | historyGet (path sessionID : String) (ok : Bool)
  | historyCreate (sessionID path : String) (content : GoString) (ok : Bool)
  | historyCreateVersion (sessionID path : String) (content : GoString) (ok : Bool)
  | logDebug
  | recordFileWrite (path : String)
  | recordFileRead (path : String)
  | waitForLspDiagnostics (path : String)
  deriving DecidableEq, Repr

/-- The call context and the pure collaborators of a transaction: `config.WorkingDirectory`,
`filepath.Join`, `filepath.Dir`, `diff.GenerateDiff`, `GetContextValues(ctx)`, the layout
`time.RFC3339` of `Time.Format` and `getDiagnostics`. -/
structure Env where
  WorkingDirectory : String
  Join : String → String → String
  Dir : String → String
  GenerateDiff : GoString → GoString → String → String × Int × Int
  SessionID : String
  MessageID : String
  Format : Int → String
  getDiagnostics : String → String

/-- The state of the external world: the file system with the faults of its primitives, the
policy of the permission arbiter, the clock, the process-wide read and write timestamps (zero
when nothing is recorded), the history service with its faults, and the trace of effects. -/
structure World where
  fs : String → Option FileNode
  statFault : String → Bool
  mkdirFault : Bool
  readFault : Bool
  writeFault : Bool
  permit : CreatePermissionRequest → Bool
  clock : Int
  lastRead : String → Int
  lastWrite : String → Int
  history : List HistoryFile
  historyCreateFault : Bool
  historyVersionFault : Bool
  trace : List Event

/-- Append an effect to the trace. -/
def World.emit (w : World) (e : Event) : World := { w with trace := w.trace ++ [e] }

/-- The call `os.Stat(path)`. -/
def World.Stat (w : World) (path : String) : StatResult :=
  if w.statFault path then StatResult.fail
  else
    match w.fs path with
    | none => StatResult.notExist
    | some node => StatResult.ok { IsDir := node.IsDir, ModTime := node.ModTime }

/-- The call `os.MkdirAll(dir, 0o755)`: on success the directory exists afterwards. -/
def World.MkdirAll (w : World) (dir : String) : World :=
  if w.mkdirFault then w.emit (Event.mkdirAll dir false)
  else
    { w with
      fs := fun q =>
        if q = dir ∧ w.fs q = none then some { IsDir := true, Content := [], ModTime := w.clock }
        else w.fs q
      trace := w.trace ++ [Event.mkdirAll dir true] }

/-- The call `os.ReadFile(path)`: `none` is an error. -/
def World.ReadFile (w : World) (path : String) : Option GoString :=
  if w.readFault then none
  else
    match w.fs path with
    | none => none
    | some node => if node.IsDir then none else some node.Content

/-- The call `os.WriteFile(path, content, 0o644)`: on success the file holds the content and is
stamped with the current time. -/
def World.WriteFile (w : World) (path : String) (content : GoString) : World :=
  if w.writeFault then w.emit (Event.writeFile path content false)
  else
    { w with
      fs := fun q =>
        if q = path then some { IsDir := false, Content := content, ModTime := w.clock }
        else w.fs q
      trace := w.trace ++ [Event.writeFile path content true] }

/-- Modelled from the spec: the function `getLastReadTime`, declared outside `edit.go`: the
recorded last-read time of the path, the zero time when none is recorded. -/
def World.getLastReadTime (w : World) (path : String) : Int := w.lastRead path

/-- Modelled from the spec: the function `recordFileRead`, declared outside `edit.go`: marks
the path as read at the current time. -/
def World.recordFileRead (w : World) (path : String) : World :=
  { w with
    lastRead := fun q => if q = path then w.clock else w.lastRead q
    trace := w.trace ++ [Event.recordFileRead path] }

/-- Modelled from the spec: the function `recordFileWrite`, declared outside `edit.go`: marks
the path as written at the current time. -/
def World.recordFileWrite (w : World) (path : String) : World :=
  { w with
    lastWrite := fun q => if q = path then w.clock else w.lastWrite q
    trace := w.trace ++ [Event.recordFileWrite path] }

/-- Modelled from the spec: the lookup `GetByPathAndSession` of the history service (section
6), declared outside `edit.go`: the latest record of the path in the session; `none` is an
error. -/
def World.GetByPathAndSession (w : World) (path sessionID : String) : Option HistoryFile :=
  w.history.find? fun f => f.Path = path ∧ f.SessionID = sessionID

/-- Modelled from the spec: the call `Create` of the history service (section 6), declared
outside `edit.go`. -/
def World.historyCreate (w : World) (sessionID path : String) (content : GoString) : World :=
  if w.historyCreateFault then w.emit (Event.historyCreate sessionID path content false)
  else
    { w with
      history := { SessionID := sessionID, Path := path, Content := content } :: w.history
      trace := w.trace ++ [Event.historyCreate sessionID path content true] }

/-- Modelled from the spec: the call `CreateVersion` of the history service (section 6),
declared outside `edit.go`, followed by the `logging.Debug` of `edit.go` when it fails. -/
def World.historyCreateVersion (w : World) (sessionID path : String) (content : GoString) :
    World :=
  if w.historyVersionFault then
    (w.emit (Event.historyCreateVersion sessionID path content false)).emit Event.logDebug
  else
    { w with
      history := { SessionID := sessionID, Path := path, Content := content } :: w.history
      trace := w.trace ++ [Event.historyCreateVersion sessionID path content true] }

/-- The result of a transaction: the returned pair `(ToolResponse, error)` with the world after
the call, or a run-time panic in the world reached by then. -/
inductive Outcome where
  | panic (w : World)
  | ret (response : ToolResponse) (err : Option GoError) (w : World)

/-! ## `edit.go`: the patch transactions -/

/-- The constant `EditToolName`. -/
def EditToolName : String := "edit"

/-- The permission request built by each transaction: the path is the working directory when
`strings.HasPrefix(filePath, rootDir)` holds, and the directory of the file otherwise. -/
def permissionRequest (env : Env) (filePath description diff : String) :
    CreatePermissionRequest :=
  { SessionID := env.SessionID
    Path := if env.WorkingDirectory.data.isPrefixOf filePath.data then env.WorkingDirectory
      else env.Dir filePath
    ToolName := EditToolName
    Action := "write"
    Description := description
    Params := { FilePath := filePath, Diff := diff } }

/-- The method `editTool.createNewFile`. -/
def createNewFile (env : Env) (w : World) (filePath : String) (content : GoString) : Outcome :=
  match w.Stat filePath with
  | StatResult.ok fileInfo =>
    if fileInfo.IsDir then
      Outcome.ret (NewTextErrorResponse ("path is a directory, not a file: " ++ filePath)) none
        (w.emit (Event.stat filePath))
    else
      Outcome.ret (NewTextErrorResponse ("file already exists: " ++ filePath)) none
        (w.emit (Event.stat filePath))
  | StatResult.fail => Outcome.ret {} (some GoError.failedToAccessFile) (w.emit (Event.stat filePath))
  | StatResult.notExist =>
    if w.mkdirFault then
      Outcome.ret {} (some GoError.failedToCreateParentDirectories)
        ((w.emit (Event.stat filePath)).MkdirAll (env.Dir filePath))
    else if env.SessionID = "" ∨ env.MessageID = "" then
      Outcome.ret {} (some GoError.sessionIDAndMessageIDRequired)
        ((w.emit (Event.stat filePath)).MkdirAll (env.Dir filePath))
    else if !w.permit (permissionRequest env filePath ("Create file " ++ filePath)
        (env.GenerateDiff [] content filePath).1) then
      Outcome.ret {} (some GoError.ErrorPermissionDenied)
        (((w.emit (Event.stat filePath)).MkdirAll (env.Dir filePath)).emit
          (Event.permissionRequest (permissionRequest env filePath ("Create file " ++ filePath)
            (env.GenerateDiff [] content filePath).1) false))
    else if w.writeFault then
      Outcome.ret {} (some GoError.failedToWriteFile)
        ((((w.emit (Event.stat filePath)).MkdirAll (env.Dir filePath)).emit
          (Event.permissionRequest (permissionRequest env filePath ("Create file " ++ filePath)
            (env.GenerateDiff [] content filePath).1) true)).WriteFile filePath content)
    else if w.historyCreateFault then
      Outcome.ret {} (some GoError.errorCreatingFileHistory)
        (((((w.emit (Event.stat filePath)).MkdirAll (env.Dir filePath)).emit
          (Event.permissionRequest (permissionRequest env filePath ("Create file " ++ filePath)
            (env.GenerateDiff [] content filePath).1) true)).WriteFile filePath content).historyCreate
              env.SessionID filePath [])
    else
      Outcome.ret
        (WithResponseMetadata (NewTextResponse ("File created: " ++ filePath))
          { Diff := (env.GenerateDiff [] content filePath).1
            Additions := (env.GenerateDiff [] content filePath).2.1
            Removals := (env.GenerateDiff [] content filePath).2.2 })
        none
        ((((((((w.emit (Event.stat filePath)).MkdirAll (env.Dir filePath)).emit
          (Event.permissionRequest (permissionRequest env filePath ("Create file " ++ filePath)
            (env.GenerateDiff [] content filePath).1) true)).WriteFile filePath content).historyCreate
              env.SessionID filePath []).historyCreateVersion env.SessionID filePath
                content).recordFileWrite filePath).recordFileRead filePath)

/-- The result of the common opening of `deleteContent` and `replaceContent`: an early return,
the content read with the offsets of the unique match, or a panic. -/
inductive Located where
  | panic (w : World)
  | early (response : ToolResponse) (err : Option GoError) (w : World)
  | found (oldContent : GoString) (start stop : Int) (w : World)

/-- The common opening of `deleteContent` (lines 270-306) and `replaceContent` (lines 386-422),
which is the same code in both: `os.Stat`, the directory check, the staleness guard, `os.ReadFile`
and the unique matcher. -/
def locateMatch (env : Env) (w : World) (filePath : String) (oldString : GoString) : Located :=
  match w.Stat filePath with
  | StatResult.notExist =>
    Located.early (NewTextErrorResponse ("file not found: " ++ filePath)) none
      (w.emit (Event.stat filePath))
  | StatResult.fail =>
    Located.early {} (some GoError.failedToAccessFile) (w.emit (Event.stat filePath))
  | StatResult.ok fileInfo =>
    if fileInfo.IsDir then
      Located.early (NewTextErrorResponse ("path is a directory, not a file: " ++ filePath)) none
        (w.emit (Event.stat filePath))
    else if w.getLastReadTime filePath = 0 then
      Located.early
        (NewTextErrorResponse "you must read the file before editing it. Use the View tool first")
        none (w.emit (Event.stat filePath))
    else if fileInfo.ModTime > w.getLastReadTime filePath then
      Located.early
        (NewTextErrorResponse ("file " ++ filePath ++
          " has been modified since it was last read (mod time: " ++
          env.Format fileInfo.ModTime ++ ", last read: " ++
          env.Format (w.getLastReadTime filePath) ++ ")"))
        none (w.emit (Event.stat filePath))
    else
      match w.ReadFile filePath with
      | none =>
        Located.early {} (some GoError.failedToReadFile)
          ((w.emit (Event.stat filePath)).emit (Event.readFile filePath false))
      | some oldContent =>
        match findMatchIgnoringWhitespaceEnhanced oldContent oldString with
        | none => Located.panic ((w.emit (Event.stat filePath)).emit (Event.readFile filePath true))
        | some (start, stop, found) =>
          if !found then
            Located.early
              (NewTextErrorResponse
                "old_string not found in file when ignoring whitespace differences")
              none ((w.emit (Event.stat filePath)).emit (Event.readFile filePath true))
          else
            Located.found oldContent start stop
              ((w.emit (Event.stat filePath)).emit (Event.readFile filePath true))

/-- The end of the history bookkeeping of `deleteContent` (lines 358-381) and `replaceContent`
(lines 475-497): the intermediate version when the stored content differs, the new version, the
timestamps and the response. -/
def recordVersions (env : Env) (w : World) (filePath : String) (oldContent newContent : GoString)
    (file : HistoryFile) (successText : String) : Outcome :=
  Outcome.ret
    (WithResponseMetadata (NewTextResponse (successText ++ filePath))
      { Diff := (env.GenerateDiff oldContent newContent filePath).1
        Additions := (env.GenerateDiff oldContent newContent filePath).2.1
        Removals := (env.GenerateDiff oldContent newContent filePath).2.2 })
    none
    ((((if file.Content ≠ oldContent then
        w.historyCreateVersion env.SessionID filePath oldContent else w).historyCreateVersion
      env.SessionID filePath newContent).recordFileWrite filePath).recordFileRead filePath)

/-- The common close of `deleteContent` (lines 310-381) and `replaceContent` (lines 429-497),
which is the same code in both up to the description of the request and the text of the
response: the identity check, the diff, the permission request, the write and the history
bookkeeping. -/
def applyEdit (env : Env) (w : World) (filePath : String) (oldContent newContent : GoString)
    (description successText : String) : Outcome :=
  if env.SessionID = "" ∨ env.MessageID = "" then
    Outcome.ret {} (some GoError.sessionIDAndMessageIDRequired) w
  else if !w.permit (permissionRequest env filePath description
      (env.GenerateDiff oldContent newContent filePath).1) then
    Outcome.ret {} (some GoError.ErrorPermissionDenied)
      (w.emit (Event.permissionRequest (permissionRequest env filePath description
        (env.GenerateDiff oldContent newContent filePath).1) false))
  else if w.writeFault then
    Outcome.ret {} (some GoError.failedToWriteFile)
      ((w.emit (Event.permissionRequest (permissionRequest env filePath description
        (env.GenerateDiff oldContent newContent filePath).1) true)).WriteFile filePath newContent)
  else
    match w.GetByPathAndSession filePath env.SessionID with
    | none =>
      if w.historyCreateFault then
        Outcome.ret {} (some GoError.errorCreatingFileHistory)
          ((((w.emit (Event.permissionRequest (permissionRequest env filePath description
            (env.GenerateDiff oldContent newContent filePath).1) true)).WriteFile filePath
              newContent).emit (Event.historyGet filePath env.SessionID false)).historyCreate
                env.SessionID filePath oldContent)
      else
        recordVersions env
          ((((w.emit (Event.permissionRequest (permissionRequest env filePath description
            (env.GenerateDiff oldContent newContent filePath).1) true)).WriteFile filePath
              newContent).emit (Event.historyGet filePath env.SessionID false)).historyCreate
                env.SessionID filePath oldContent)
          filePath oldContent newContent {} successText
    | some file =>
      recordVersions env
        (((w.emit (Event.permissionRequest (permissionRequest env filePath description
          (env.GenerateDiff oldContent newContent filePath).1) true)).WriteFile filePath
            newContent).emit (Event.historyGet filePath env.SessionID true))
        filePath oldContent newContent file successText

/-- The method `editTool.deleteContent`: the splice `oldContent[:start] + oldContent[end:]`
panics when an offset is out of range. -/
def deleteContent (env : Env) (w : World) (filePath : String) (oldString : GoString) : Outcome :=
  match locateMatch env w filePath oldString with
  | Located.panic w1 => Outcome.panic w1
  | Located.early response err w1 => Outcome.ret response err w1
  | Located.found oldContent start stop w1 =>
    match goSlice oldContent 0 start, goSlice oldContent stop oldContent.length with
    | some before, some after =>
      applyEdit env w1 filePath oldContent (before ++ after)
        ("Delete content from file " ++ filePath) "Content deleted from file: "
    | _, _ => Outcome.panic w1

/-- The method `editTool.replaceContent`: the splice
`oldContent[:start] + newString + oldContent[end:]` panics when an offset is out of range. -/
def replaceContent (env : Env) (w : World) (filePath : String) (oldString newString : GoString) :
    Outcome :=
  match locateMatch env w filePath oldString with
  | Located.panic w1 => Outcome.panic w1
  | Located.early response err w1 => Outcome.ret response err w1
  | Located.found oldContent start stop w1 =>
    match goSlice oldContent 0 start, goSlice oldContent stop oldContent.length with
    | some before, some after =>
      if oldContent = before ++ newString ++ after then
        Outcome.ret (NewTextErrorResponse "new content is the same as old content. No changes made.")
          none w1
      else
        applyEdit env w1 filePath oldContent (before ++ newString ++ after)
          ("Replace content in file " ++ filePath) "Content replaced in file: "
    | _, _ => Outcome.panic w1

/-- The end of `editTool.Run` (lines 171-185): `replaceContent`, the early returns, and the
diagnostics appended to a successful response. -/
def runReplace (env : Env) (w : World) (filePath : String) (oldString newString : GoString) :
    Outcome :=
  match replaceContent env w filePath oldString newString with
  | Outcome.panic w1 => Outcome.panic w1
  | Outcome.ret response (some err) w1 => Outcome.ret response (some err) w1
  | Outcome.ret response none w1 =>
    if response.IsError then Outcome.ret response none w1
    else
      Outcome.ret
        { response with
          Content := "<result>\n" ++ response.Content ++ "\n</result>\n" ++
            env.getDiagnostics filePath }
        none (w1.emit (Event.waitForLspDiagnostics filePath))

/-- The middle of `editTool.Run` (lines 164-169): `deleteContent` when the new string is
empty, returning only on a Go error. -/
def runDelete (env : Env) (w : World) (filePath : String) (oldString newString : GoString) :
    Outcome :=
  if newString = [] then
    match deleteContent env w filePath oldString with
    | Outcome.panic w1 => Outcome.panic w1
    | Outcome.ret response (some err) w1 => Outcome.ret response (some err) w1
    | Outcome.ret _ none w1 => runReplace env w1 filePath oldString newString
  else runReplace env w filePath oldString newString

/-- The method `editTool.Run` on the result of `json.Unmarshal` (`none` when it fails):
`createNewFile` when the old string is empty, returning only on a Go error, then the rest. -/
def Run (env : Env) (w : World) (call : Option EditParams) : Outcome :=
  match call with
  | none => Outcome.ret (NewTextErrorResponse "invalid parameters") none w
  | some params =>
    if params.FilePath = "" then Outcome.ret (NewTextErrorResponse "file_path is required") none w
    else if cleanOldNewString params.OldString = [] then
      match createNewFile env w (env.Join env.WorkingDirectory params.FilePath)
          (cleanOldNewString params.NewString) with
      | Outcome.panic w1 => Outcome.panic w1
      | Outcome.ret response (some err) w1 => Outcome.ret response (some err) w1
      | Outcome.ret _ none w1 =>
        runDelete env w1 (env.Join env.WorkingDirectory params.FilePath)
          (cleanOldNewString params.OldString) (cleanOldNewString params.NewString)
    else
      runDelete env w (env.Join env.WorkingDirectory params.FilePath)
        (cleanOldNewString params.OldString) (cleanOldNewString params.NewString)

/-! ## Specification vocabulary -/

/-- The world in which the common opening of a transaction ends. -/
def Located.world : Located → World
  | Located.panic w => w
  | Located.early _ _ w => w
  | Located.found _ _ _ w => w

/-- The pair `(ToolResponse, error)` a transaction returns; `none` after a panic. -/
def Outcome.result : Outcome → Option (ToolResponse × Option GoError)
  | Outcome.panic _ => none
  | Outcome.ret response err _ => some (response, err)

/-- The world after a transaction. -/
def Outcome.world : Outcome → World
  | Outcome.panic w => w
  | Outcome.ret _ _ w => w

/-- The trace of effects after a transaction. -/
def Outcome.trace (o : Outcome) : List Event := o.world.trace

/-- The effects that a transaction started in the world `w` has added to the trace. -/
def Outcome.effects (o : Outcome) (w : World) : List Event := o.trace.drop w.trace.length

/-- A context with a session and a message identity, working directory `/w`, and trivial diff
and diagnostics texts. -/
def sampleEnv : Env :=
  { WorkingDirectory := "/w"
    Join := fun a b => a ++ "/" ++ b
    Dir := fun _ => "/w"
    GenerateDiff := fun _ _ _ => ("", 0, 0)
    SessionID := "s"
    MessageID := "m"
    Format := fun _ => ""
    getDiagnostics := fun _ => "" }

/-- A world with an empty file system, no recorded read, an arbiter that grants every request,
no faults, and the clock at time `1`. -/
def emptyWorld : World :=
  { fs := fun _ => none
    statFault := fun _ => false
    mkdirFault := false
    readFault := false
    writeFault := false
    permit := fun _ => true
    clock := 1
    lastRead := fun _ => 0
    lastWrite := fun _ => 0
    history := []
    historyCreateFault := false
    historyVersionFault := false
    trace := [] }

/-- The empty world with the file `/w/a.txt` holding `content`, written and read at time `1`. -/
def worldWithFile (content : GoString) : World :=
  { emptyWorld with
    fs := fun q =>
      if q = "/w/a.txt" then some { IsDir := false, Content := content, ModTime := 1 } else none
    lastRead := fun q => if q = "/w/a.txt" then 1 else 0 }


/-- A Unicode scalar value: a code point that is not a surrogate and is at most U+10FFFF. -/
def ValidRune (r : Nat) : Prop := r < 0xD800 ∨ (0xE000 ≤ r ∧ r ≤ 0x10FFFF)

instance (r : Nat) : Decidable (ValidRune r) := by unfold ValidRune; infer_instance

/-- The UTF-8 encoding of a sequence of runes. -/
def encodeRunes (rs : List Nat) : GoString := rs.flatMap encodeRune

/-- The test of the normalizer loops: the rune is kept (it is not whitespace other than newline
and carriage return). -/
def kept (r : Nat) : Bool := !isWhitespaceExceptNewline r

/-- The runes of a string that normalization keeps. -/
def keptRunes (s : GoString) : List Nat := (rangeRunes s).filter kept

/-- The pattern `pat` occurs in `runes` as a contiguous run starting at character index `i`. -/
def OccursAt (runes pat : List Nat) (i : Nat) : Prop := pat <+: runes.drop i

instance (runes pat : List Nat) (i : Nat) : Decidable (OccursAt runes pat i) := by
  unfold OccursAt; infer_instance

/-- The byte spans that the loop of `buildIndexMapEnhanced` records for the kept runes of `rs`
when the running byte index starts at `idx`. -/
def spansFrom : List Nat → Int → List RuneInfo
  | [], _ => []
  | r :: rs, idx =>
    if !isWhitespaceExceptNewline r then
      { Start := idx, End := idx + RuneLen r } :: spansFrom rs (idx + RuneLen r)
    else spansFrom rs (idx + RuneLen r)

/-- The byte offset `k` is a character boundary of `c`: it is the end of `c`, or the byte at
`k` starts a character (it is not a continuation byte inside an encoding). -/
def OnCharBoundary (c : GoString) (k : Int) : Prop :=
  0 ≤ k ∧ (k = c.length ∨ ∃ b tl, c.drop k.toNat = b :: tl ∧ RuneStart b = true)

/-- The byte is a newline or carriage-return character. -/
def isNewlineByte (b : Nat) : Bool := b == 0x0A || b == 0x0D

/-- The string with all newline and carriage-return characters deleted. -/
def deleteNewlines (s : GoString) : GoString := s.filter fun b => !isNewlineByte b

/-- The total number of newline and carriage-return characters of the string. -/
def countNewlines (s : GoString) : Nat := s.countP isNewlineByte

/-- The effect is an attempt to write a file. -/
def Event.isWrite : Event → Bool
  | Event.writeFile _ _ _ => true
  | _ => false

/-- The effect is an update of the history service or of the read and write timestamps. -/
def Event.isUpdate : Event → Bool
  | Event.historyCreate _ _ _ _ => true
  | Event.historyCreateVersion _ _ _ _ => true
  | Event.recordFileWrite _ => true
  | Event.recordFileRead _ => true
  | _ => false

/-- The effect only inspects the file system: `os.Stat` or `os.ReadFile`. -/
def Event.isProbe : Event → Bool
  | Event.stat _ => true
  | Event.readFile _ _ => true
  | _ => false

/-- The monitor of the write discipline over a list of effects: a file write is attempted only
after a permission request has been granted, and the history and the timestamps are updated
only after a write has succeeded. -/
def ordered : Bool → Bool → List Event → Bool
  | _, _, [] => true
  | granted, written, Event.permissionRequest _ p :: es => ordered (granted || p) written es
  | granted, written, Event.writeFile _ _ ok :: es =>
    granted && ordered granted (written || ok) es
  | granted, written, Event.historyCreate _ _ _ _ :: es => written && ordered granted written es
  | granted, written, Event.historyCreateVersion _ _ _ _ :: es =>
    written && ordered granted written es
  | granted, written, Event.recordFileWrite _ :: es => written && ordered granted written es
  | granted, written, Event.recordFileRead _ :: es => written && ordered granted written es
  | granted, written, _ :: es => ordered granted written es

/-- A permission request in the list was denied. -/
def deniedIn : List Event → Bool
  | [] => false
  | Event.permissionRequest _ false :: _ => true
  | _ :: es => deniedIn es

/-- A file write in the list failed. -/
def writeFailedIn : List Event → Bool
  | [] => false
  | Event.writeFile _ _ false :: _ => true
  | _ :: es => writeFailedIn es

/-- No effect of the list is an attempt to write a file. -/
def noWrite (evs : List Event) : Bool := evs.all fun e => !e.isWrite

/-- No effect of the list updates the history or the timestamps. -/
def noUpdate (evs : List Event) : Bool := evs.all fun e => !e.isUpdate

/-- The write discipline of a transaction with effects `evs` and returned pair `res`: the
effects pass the monitor `ordered`; after a denied permission request the transaction returns
`permission.ErrorPermissionDenied` with no file write and no update of the history or the
timestamps; after a failed write there is no update of the history or the timestamps. -/
def Discipline (evs : List Event) (res : Option (ToolResponse × Option GoError)) : Prop :=
  ordered false false evs = true ∧
  (deniedIn evs = true →
    res = some ({}, some GoError.ErrorPermissionDenied) ∧ noWrite evs = true ∧
      noUpdate evs = true) ∧
  (writeFailedIn evs = true → noUpdate evs = true)

/-- The text of the error response of the staleness guard: the instruction to read the file
first when no read is recorded, and otherwise the report of both timestamps. -/
def guardMessage (env : Env) (w : World) (filePath : String) (info : FileInfo) : String :=
  if w.getLastReadTime filePath = 0 then
    "you must read the file before editing it. Use the View tool first"
  else
    "file " ++ filePath ++ " has been modified since it was last read (mod time: " ++
      env.Format info.ModTime ++ ", last read: " ++ env.Format (w.getLastReadTime filePath) ++ ")"

/-- A world in which `/w/a.txt` was written at time `5` and never read. -/
def unreadWorld : World :=
  { emptyWorld with
    fs := fun q =>
      if q = "/w/a.txt" then some { IsDir := false, Content := ofString "x y z", ModTime := 5 }
      else none }

/-- A world in which `/w/a.txt` was written at time `5` and last read at time `3`. -/
def staleWorld : World := { unreadWorld with lastRead := fun q => if q = "/w/a.txt" then 3 else 0 }

/-- A world in which `/w/a.txt` was written at time `5` and last read at time `5`. -/
def freshWorld : World := { unreadWorld with lastRead := fun q => if q = "/w/a.txt" then 5 else 0 }

/-- The string begins with a noise token: a backslash, a colon or a semicolon. -/
def beginsWithNoise (s : GoString) : Bool :=
  HasPrefix s [0x5C] || HasPrefix s [0x3A] || HasPrefix s [0x3B]

/-- The string is not empty and its first rune is not white space. -/
def NonSpaceHead (s : GoString) : Prop := s ≠ [] ∧ IsSpace (decodeRune s).1 = false

/-! ## Lemmas on UTF-8 decoding and encoding -/

theorem acceptLo_ge (b : Nat) : 0x80 ≤ acceptLo b := by
  unfold acceptLo; split_ifs <;> omega

theorem acceptHi_le (b : Nat) : acceptHi b ≤ 0xBF := by
  unfold acceptHi; split_ifs <;> omega

theorem decodeRune_encodeRune (r : Nat) (h : ValidRune r) (rest : GoString) :
    decodeRune (encodeRune r ++ rest) = (r, (encodeRune r).length) := by
  unfold ValidRune at h
  unfold encodeRune
  split
  · simp only [List.cons_append, List.nil_append, decodeRune, List.length_cons, List.length_nil]
    rw [if_pos (by omega)]
  split
  · simp only [List.cons_append, List.nil_append, decodeRune, List.length_cons, List.length_nil]
    rw [if_neg (by omega), if_neg (by omega), if_pos (by omega), if_pos (by omega)]
    simp only [Prod.mk.injEq, and_true]; omega
  split
  · omega
  split
  · simp only [List.cons_append, List.nil_append, decodeRune, List.length_cons, List.length_nil]
    rw [if_neg (by omega), if_neg (by omega), if_neg (by omega), if_pos (by omega),
      if_pos (by unfold acceptLo acceptHi; split_ifs <;> omega), if_pos (by omega)]
    simp only [Prod.mk.injEq, and_true]; omega
  · simp only [List.cons_append, List.nil_append, decodeRune, List.length_cons, List.length_nil]
    rw [if_neg (by omega), if_neg (by omega), if_neg (by omega), if_neg (by omega),
      if_pos (by omega), if_pos (by unfold acceptLo acceptHi; split_ifs <;> omega),
      if_pos (by omega), if_pos (by omega)]
    simp only [Prod.mk.injEq, and_true]; omega

theorem encodeRune_two (b b1 : Nat) (h0 : 0xC2 ≤ b) (h0' : b < 0xE0) (h1 : 0x80 ≤ b1)
    (h1' : b1 ≤ 0xBF) : encodeRune (b % 32 * 64 + b1 % 64) = [b, b1] := by
  unfold encodeRune
  rw [if_neg (by omega), if_pos (by omega)]
  congr 1
  · omega
  · congr 1; omega

theorem encodeRune_three (b b1 b2 : Nat) (h0 : 0xE0 ≤ b) (h0' : b < 0xF0)
    (h1 : acceptLo b ≤ b1) (h1' : b1 ≤ acceptHi b) (h2 : 0x80 ≤ b2) (h2' : b2 ≤ 0xBF) :
    encodeRune (b % 16 * 4096 + b1 % 64 * 64 + b2 % 64) = [b, b1, b2] := by
  have h3 : 0x80 ≤ b1 := le_trans (acceptLo_ge b) h1
  have h4 : b1 ≤ 0xBF := le_trans h1' (acceptHi_le b)
  have h5 : b = 0xE0 → 0xA0 ≤ b1 := by intro h; subst h; exact h1
  have h6 : b = 0xED → b1 ≤ 0x9F := by intro h; subst h; exact h1'
  unfold encodeRune
  rw [if_neg (by omega), if_neg (by omega), if_neg (by omega), if_pos (by omega)]
  congr 1
  · omega
  · congr 1
    · omega
    · congr 1; omega

theorem encodeRune_four (b b1 b2 b3 : Nat) (h0 : 0xF0 ≤ b) (h0' : b < 0xF5)
    (h1 : acceptLo b ≤ b1) (h1' : b1 ≤ acceptHi b)
    (h2 : 0x80 ≤ b2) (h2' : b2 ≤ 0xBF) (h3 : 0x80 ≤ b3) (h3' : b3 ≤ 0xBF) :
    encodeRune (b % 8 * 262144 + b1 % 64 * 4096 + b2 % 64 * 64 + b3 % 64) = [b, b1, b2, b3] := by
  have h4 : 0x80 ≤ b1 := le_trans (acceptLo_ge b) h1
  have h5 : b1 ≤ 0xBF := le_trans h1' (acceptHi_le b)
  have h6 : b = 0xF0 → 0x90 ≤ b1 := by intro h; subst h; exact h1
  have h7 : b = 0xF4 → b1 ≤ 0x8F := by intro h; subst h; exact h1'
  unfold encodeRune
  rw [if_neg (by omega), if_neg (by omega), if_neg (by omega), if_neg (by omega)]
  congr 1
  · omega
  · congr 1
    · omega
    · congr 1
      · omega
      · congr 1; omega

/-- The possible outcomes of a decoding step. -/
theorem decodeRune_cases (b : Nat) (rest : GoString) :
    (b < 0x80 ∧ decodeRune (b :: rest) = (b, 1)) ∨
    (0x80 ≤ b ∧ decodeRune (b :: rest) = (RuneError, 1)) ∨
    (∃ b1 tail, rest = b1 :: tail ∧ 0xC2 ≤ b ∧ b < 0xE0 ∧ 0x80 ≤ b1 ∧ b1 ≤ 0xBF ∧
      decodeRune (b :: rest) = (b % 32 * 64 + b1 % 64, 2)) ∨
    (∃ b1 b2 tail, rest = b1 :: b2 :: tail ∧ 0xE0 ≤ b ∧ b < 0xF0 ∧ acceptLo b ≤ b1 ∧
      b1 ≤ acceptHi b ∧ 0x80 ≤ b2 ∧ b2 ≤ 0xBF ∧
      decodeRune (b :: rest) = (b % 16 * 4096 + b1 % 64 * 64 + b2 % 64, 3)) ∨
    (∃ b1 b2 b3 tail, rest = b1 :: b2 :: b3 :: tail ∧ 0xF0 ≤ b ∧ b < 0xF5 ∧ acceptLo b ≤ b1 ∧
      b1 ≤ acceptHi b ∧ 0x80 ≤ b2 ∧ b2 ≤ 0xBF ∧ 0x80 ≤ b3 ∧ b3 ≤ 0xBF ∧
      decodeRune (b :: rest) =
        (b % 8 * 262144 + b1 % 64 * 4096 + b2 % 64 * 64 + b3 % 64, 4)) := by
  by_cases c1 : b < 0x80
  · left; exact ⟨c1, by simp only [decodeRune]; rw [if_pos c1]⟩
  right
  have c1' : 0x80 ≤ b := by omega
  by_cases c2 : b < 0xC2
  · left; exact ⟨c1', by simp only [decodeRune]; rw [if_neg c1, if_pos c2]⟩
  by_cases c3 : b < 0xE0
  · match rest with
    | [] => left; exact ⟨c1', by simp only [decodeRune]; rw [if_neg c1, if_neg c2, if_pos c3]⟩
    | b1 :: tail =>
      by_cases hb : 0x80 ≤ b1 ∧ b1 ≤ 0xBF
      · right; left
        exact ⟨b1, tail, rfl, by omega, c3, hb.1, hb.2, by
          simp only [decodeRune]; rw [if_neg c1, if_neg c2, if_pos c3, if_pos hb]⟩
      · left
        exact ⟨c1', by simp only [decodeRune]; rw [if_neg c1, if_neg c2, if_pos c3, if_neg hb]⟩
  by_cases c4 : b < 0xF0
  · match rest with
    | [] => left; exact ⟨c1', by
        simp only [decodeRune]; rw [if_neg c1, if_neg c2, if_neg c3, if_pos c4]⟩
    | [_] => left; exact ⟨c1', by
        simp only [decodeRune]; rw [if_neg c1, if_neg c2, if_neg c3, if_pos c4]⟩
    | b1 :: b2 :: tail =>
      by_cases hb : acceptLo b ≤ b1 ∧ b1 ≤ acceptHi b
      · by_cases hb2 : 0x80 ≤ b2 ∧ b2 ≤ 0xBF
        · right; right; left
          exact ⟨b1, b2, tail, rfl, by omega, c4, hb.1, hb.2, hb2.1, hb2.2, by
            simp only [decodeRune]
            rw [if_neg c1, if_neg c2, if_neg c3, if_pos c4, if_pos hb, if_pos hb2]⟩
        · left
          exact ⟨c1', by
            simp only [decodeRune]
            rw [if_neg c1, if_neg c2, if_neg c3, if_pos c4, if_pos hb, if_neg hb2]⟩
      · left
        exact ⟨c1', by
          simp only [decodeRune]; rw [if_neg c1, if_neg c2, if_neg c3, if_pos c4, if_neg hb]⟩
  by_cases c5 : b < 0xF5
  · match rest with
    | [] => left; exact ⟨c1', by
        simp only [decodeRune]; rw [if_neg c1, if_neg c2, if_neg c3, if_neg c4, if_pos c5]⟩
    | [_] => left; exact ⟨c1', by
        simp only [decodeRune]; rw [if_neg c1, if_neg c2, if_neg c3, if_neg c4, if_pos c5]⟩
    | [_, _] => left; exact ⟨c1', by
        simp only [decodeRune]; rw [if_neg c1, if_neg c2, if_neg c3, if_neg c4, if_pos c5]⟩
    | b1 :: b2 :: b3 :: tail =>
      by_cases hb : acceptLo b ≤ b1 ∧ b1 ≤ acceptHi b
      · by_cases hb2 : 0x80 ≤ b2 ∧ b2 ≤ 0xBF
        · by_cases hb3 : 0x80 ≤ b3 ∧ b3 ≤ 0xBF
          · right; right; right
            exact ⟨b1, b2, b3, tail, rfl, by omega, c5, hb.1, hb.2, hb2.1, hb2.2, hb3.1,
              hb3.2, by
                simp only [decodeRune]
                rw [if_neg c1, if_neg c2, if_neg c3, if_neg c4, if_pos c5, if_pos hb,
                  if_pos hb2, if_pos hb3]⟩
          · left
            exact ⟨c1', by
              simp only [decodeRune]
              rw [if_neg c1, if_neg c2, if_neg c3, if_neg c4, if_pos c5, if_pos hb,
                if_pos hb2, if_neg hb3]⟩
        · left
          exact ⟨c1', by
            simp only [decodeRune]
            rw [if_neg c1, if_neg c2, if_neg c3, if_neg c4, if_pos c5, if_pos hb, if_neg hb2]⟩
      · left
        exact ⟨c1', by
          simp only [decodeRune]
          rw [if_neg c1, if_neg c2, if_neg c3, if_neg c4, if_pos c5, if_neg hb]⟩
  · left
    exact ⟨c1', by
      simp only [decodeRune]; rw [if_neg c1, if_neg c2, if_neg c3, if_neg c4, if_neg c5]⟩

theorem decodeRune_valid (s : GoString) : ValidRune (decodeRune s).1 := by
  match s with
  | [] => simp [decodeRune, RuneError, ValidRune]
  | b :: rest =>
    unfold ValidRune
    rcases decodeRune_cases b rest with h | h | h | h | h
    · rw [h.2]; dsimp only; omega
    · rw [h.2]; simp [RuneError]
    · obtain ⟨b1, tail, _, h0, h0', h1, h1', hd⟩ := h
      rw [hd]; dsimp only; omega
    · obtain ⟨b1, b2, tail, _, h0, h0', h1, h1', h2, h2', hd⟩ := h
      have h3 : 0x80 ≤ b1 := le_trans (acceptLo_ge b) h1
      have h4 : b1 ≤ 0xBF := le_trans h1' (acceptHi_le b)
      have h6 : b = 0xED → b1 ≤ 0x9F := by intro h; subst h; exact h1'
      rw [hd]; dsimp only; omega
    · obtain ⟨b1, b2, b3, tail, _, h0, h0', h1, h1', h2, h2', h3, h3', hd⟩ := h
      have h4 : 0x80 ≤ b1 := le_trans (acceptLo_ge b) h1
      have h5 : b1 ≤ 0xBF := le_trans h1' (acceptHi_le b)
      have h6 : b = 0xF0 → 0x90 ≤ b1 := by intro h; subst h; exact h1
      have h7 : b = 0xF4 → b1 ≤ 0x8F := by intro h; subst h; exact h1'
      rw [hd]; dsimp only; omega

theorem decodeRune_width_pos (b : Nat) (rest : GoString) : 1 ≤ (decodeRune (b :: rest)).2 := by
  rcases decodeRune_cases b rest with h | h | h | h | h
  · rw [h.2]
  · rw [h.2]
  · obtain ⟨b1, tail, _, _, _, _, _, hd⟩ := h
    rw [hd]; simp
  · obtain ⟨b1, b2, tail, _, _, _, _, _, _, _, hd⟩ := h
    rw [hd]; simp
  · obtain ⟨b1, b2, b3, tail, _, _, _, _, _, _, _, _, _, hd⟩ := h
    rw [hd]; simp

theorem RuneLen_eq_length (r : Nat) (h : ValidRune r) : RuneLen r = (encodeRune r).length := by
  unfold ValidRune at h
  unfold RuneLen encodeRune
  repeat' split
  all_goals first | omega | rfl

theorem encodeRune_length_pos (r : Nat) : 1 ≤ (encodeRune r).length := by
  unfold encodeRune
  repeat' split
  all_goals simp

/-- A decoding step that is not the rejection of an invalid byte consumes exactly the encoding
of the decoded rune. -/
theorem encodeRune_decodeRune (b : Nat) (rest : GoString)
    (h : ¬((decodeRune (b :: rest)).2 = 1 ∧ 0x80 ≤ b)) :
    b :: rest = encodeRune (decodeRune (b :: rest)).1 ++
      (b :: rest).drop (decodeRune (b :: rest)).2 := by
  rcases decodeRune_cases b rest with h' | h' | h' | h' | h'
  · rw [h'.2]; simp [encodeRune, show b ≤ 127 by omega]
  · rw [h'.2] at h; exact absurd ⟨rfl, h'.1⟩ h
  · obtain ⟨b1, tail, rfl, h0, h0', h1, h1', hd⟩ := h'
    rw [hd]; dsimp only; rw [encodeRune_two b b1 h0 h0' h1 h1']; rfl
  · obtain ⟨b1, b2, tail, rfl, h0, h0', h1, h1', h2, h2', hd⟩ := h'
    rw [hd]; dsimp only; rw [encodeRune_three b b1 b2 h0 h0' h1 h1' h2 h2']; rfl
  · obtain ⟨b1, b2, b3, tail, rfl, h0, h0', h1, h1', h2, h2', h3, h3', hd⟩ := h'
    rw [hd]; dsimp only
    rw [encodeRune_four b b1 b2 b3 h0 h0' h1 h1' h2 h2' h3 h3']; rfl

/-! ## Lemmas on the `range` loop -/

theorem rangeAux_drop (k : Nat) (l : GoString) : rangeAux k l = rangeAux 0 (l.drop k) := by
  induction l generalizing k with
  | nil => simp [rangeAux]
  | cons b rest ih =>
    cases k with
    | zero => simp
    | succ k => simp only [rangeAux, List.drop_succ_cons]; exact ih k

theorem rangeRunes_cons (b : Nat) (rest : GoString) :
    rangeRunes (b :: rest) =
      (decodeRune (b :: rest)).1 :: rangeRunes ((b :: rest).drop (decodeRune (b :: rest)).2) := by
  have hw := decodeRune_width_pos b rest
  obtain ⟨w, hw'⟩ : ∃ w, (decodeRune (b :: rest)).2 = w + 1 := ⟨_, (Nat.sub_add_cancel hw).symm⟩
  simp only [rangeRunes, rangeAux]
  rw [rangeAux_drop, hw']
  simp

theorem rangeRunes_nil : rangeRunes [] = [] := rfl

theorem rangeRunes_encodeRune_append (r : Nat) (h : ValidRune r) (rest : GoString) :
    rangeRunes (encodeRune r ++ rest) = r :: rangeRunes rest := by
  have hlen := encodeRune_length_pos r
  have hd := decodeRune_encodeRune r h rest
  match he : encodeRune r ++ rest with
  | [] =>
    have : (encodeRune r ++ rest).length = 0 := by rw [he]; rfl
    simp only [List.length_append] at this; omega
  | b :: tl =>
    rw [rangeRunes_cons, ← he, hd]
    simp

theorem encodeRunes_nil : encodeRunes [] = [] := rfl

theorem encodeRunes_cons (r : Nat) (rs : List Nat) :
    encodeRunes (r :: rs) = encodeRune r ++ encodeRunes rs := by
  simp [encodeRunes]

theorem encodeRunes_append (xs ys : List Nat) :
    encodeRunes (xs ++ ys) = encodeRunes xs ++ encodeRunes ys := by
  simp [encodeRunes]

theorem rangeRunes_encodeRunes (rs : List Nat) (h : ∀ r ∈ rs, ValidRune r) :
    rangeRunes (encodeRunes rs) = rs := by
  induction rs with
  | nil => rfl
  | cons r rs ih =>
    rw [encodeRunes_cons, rangeRunes_encodeRune_append r (h r (by simp)),
      ih (fun x hx => h x (by simp [hx]))]

theorem drop_decodeRune_lt (b : Nat) (rest : GoString) :
    ((b :: rest).drop (decodeRune (b :: rest)).2).length < (b :: rest).length := by
  have hw := decodeRune_width_pos b rest
  simp only [List.length_drop, List.length_cons]; omega

theorem rangeRunes_valid : (s : GoString) → ∀ r ∈ rangeRunes s, ValidRune r
  | [] => by simp [rangeRunes, rangeAux]
  | b :: rest => by
    rw [rangeRunes_cons]
    intro r hr
    rcases List.mem_cons.mp hr with h | h
    · rw [h]; exact decodeRune_valid _
    · exact rangeRunes_valid _ r h
termination_by s => s.length
decreasing_by exact drop_decodeRune_lt _ _

/-! ## Lemmas on the normalizer -/

theorem removeWhitespaceLoop_eq (rs : List Nat) (sb : GoString) :
    removeWhitespaceLoop rs sb = sb ++ encodeRunes (rs.filter kept) := by
  induction rs generalizing sb with
  | nil => simp [removeWhitespaceLoop, encodeRunes]
  | cons r rs ih =>
    simp only [removeWhitespaceLoop, List.filter_cons]
    by_cases h : kept r = true
    · have h' : (!isWhitespaceExceptNewline r) = true := h
      rw [if_pos h', if_pos h, ih, encodeRunes_cons, List.append_assoc]
    · have h' : ¬(!isWhitespaceExceptNewline r) = true := h
      rw [if_neg h', if_neg h, ih]

theorem buildIndexMapLoop_eq (rs : List Nat) (sb : GoString) (infos : List RuneInfo) (idx : Int) :
    buildIndexMapLoop rs sb infos idx =
      (sb ++ encodeRunes (rs.filter kept), infos ++ spansFrom rs idx) := by
  induction rs generalizing sb infos idx with
  | nil => simp [buildIndexMapLoop, encodeRunes, spansFrom]
  | cons r rs ih =>
    simp only [buildIndexMapLoop, spansFrom, List.filter_cons]
    by_cases h : kept r = true
    · have h' : (!isWhitespaceExceptNewline r) = true := h
      rw [if_pos h', if_pos h, if_pos h', ih, encodeRunes_cons, List.append_assoc]
      simp
    · have h' : ¬(!isWhitespaceExceptNewline r) = true := h
      rw [if_neg h', if_neg h, if_neg h', ih]

theorem removeWhitespace_eq (s : GoString) : removeWhitespace s = encodeRunes (keptRunes s) := by
  simp [removeWhitespace, removeWhitespaceLoop_eq, keptRunes]

theorem buildIndexMapEnhanced_eq (c : GoString) :
    buildIndexMapEnhanced c = (encodeRunes (keptRunes c), spansFrom (rangeRunes c) 0) := by
  simp [buildIndexMapEnhanced, buildIndexMapLoop_eq, keptRunes]

theorem keptRunes_valid (s : GoString) : ∀ r ∈ keptRunes s, ValidRune r := by
  intro r hr
  exact rangeRunes_valid s r (List.mem_of_mem_filter hr)

theorem rangeRunes_removeWhitespace (s : GoString) :
    rangeRunes (removeWhitespace s) = keptRunes s := by
  rw [removeWhitespace_eq, rangeRunes_encodeRunes _ (keptRunes_valid s)]

theorem spansFrom_length (rs : List Nat) (idx : Int) :
    (spansFrom rs idx).length = (rs.filter kept).length := by
  induction rs generalizing idx with
  | nil => rfl
  | cons r rs ih =>
    simp only [spansFrom, List.filter_cons]
    by_cases h : kept r = true
    · have h' : (!isWhitespaceExceptNewline r) = true := h
      rw [if_pos h', if_pos h, List.length_cons, List.length_cons, ih]
    · have h' : ¬(!isWhitespaceExceptNewline r) = true := h
      rw [if_neg h', if_neg h, ih]

theorem encodeRunes_eq_nil (rs : List Nat) : encodeRunes rs = [] ↔ rs = [] := by
  cases rs with
  | nil => simp [encodeRunes]
  | cons r rs =>
    have := encodeRune_length_pos r
    simp only [encodeRunes_cons, List.append_eq_nil, reduceCtorEq, iff_false, not_and]
    intro h
    rw [h] at this
    simp at this

/-! ## Lemmas on the rune search -/

theorem matchLoop_eq (runes : List Nat) (i : Nat) (ps : List Nat) (j : Nat)
    (h : i + j + ps.length ≤ runes.length) :
    matchLoop runes i ps j = some (decide (ps <+: runes.drop (i + j))) := by
  induction ps generalizing j with
  | nil => simp [matchLoop]
  | cons q ps ih =>
    have hlt : i + j < runes.length := by simp only [List.length_cons] at h; omega
    have hdrop : runes.drop (i + j) = runes[i + j] :: runes.drop (i + j + 1) :=
      List.drop_eq_getElem_cons hlt
    simp only [matchLoop]
    rw [List.getElem?_eq_getElem hlt, hdrop]
    dsimp only
    by_cases hx : runes[i + j] = q
    · rw [if_neg (by simp [hx]), ih (j + 1) (by simp only [List.length_cons] at h; omega)]
      congr 1
      rw [decide_eq_decide, List.cons_prefix_cons]
      simp [hx, Nat.add_assoc]
    · rw [if_pos hx]
      have hn : ¬(q :: ps <+: runes[i + j] :: List.drop (i + j + 1) runes) := by
        rw [List.cons_prefix_cons]
        exact fun e => hx e.1.symm
      rw [decide_eq_false hn]

theorem OccursAt_bound (runes pat : List Nat) (t : Nat) (hp : pat ≠ [])
    (h : OccursAt runes pat t) : t + pat.length ≤ runes.length := by
  have h1 := h.length_le
  have h2 : 1 ≤ pat.length := by
    cases pat with
    | nil => exact absurd rfl hp
    | cons a l => simp
  simp only [List.length_drop] at h1
  omega

theorem findRuneIndexLoop_spec (runes pat : List Nat) (k i : Nat)
    (h : k = 0 ∨ i + k + pat.length ≤ runes.length + 1) :
    (findRuneIndexLoop runes pat k i = some (-1) ∧
      ∀ t, i ≤ t → t < i + k → ¬OccursAt runes pat t) ∨
    (∃ t : Nat, findRuneIndexLoop runes pat k i = some (t : Int) ∧ i ≤ t ∧ t < i + k ∧
      OccursAt runes pat t ∧ ∀ u, i ≤ u → u < t → ¬OccursAt runes pat u) := by
  induction k generalizing i with
  | zero =>
    left
    exact ⟨rfl, fun t h1 h2 => by omega⟩
  | succ k ih =>
    have h : i + (k + 1) + pat.length ≤ runes.length + 1 := by omega
    have hm := matchLoop_eq runes i pat 0 (by omega)
    simp only [findRuneIndexLoop]
    rw [hm]
    by_cases ho : OccursAt runes pat i
    · right
      refine ⟨i, ?_, le_refl _, by omega, ho, fun u h1 h2 => by omega⟩
      have : decide (pat <+: List.drop (i + 0) runes) = true := by simpa [OccursAt] using ho
      rw [this]
    · have : decide (pat <+: List.drop (i + 0) runes) = false := by simpa [OccursAt] using ho
      rw [this]
      dsimp only
      rcases ih (i + 1) (by omega) with ⟨h1, h2⟩ | ⟨t, h1, h2, h3, h4, h5⟩
      · left
        refine ⟨h1, fun t ht1 ht2 => ?_⟩
        by_cases e : t = i
        · rw [e]; exact ho
        · exact h2 t (by omega) (by omega)
      · right
        refine ⟨t, h1, by omega, by omega, h4, fun u hu1 hu2 => ?_⟩
        by_cases e : u = i
        · rw [e]; exact ho
        · exact h5 u (by omega) hu2

theorem findLastRuneIndexLoop_spec (runes pat : List Nat) (k : Nat)
    (h : k = 0 ∨ k + pat.length ≤ runes.length + 1) :
    (findLastRuneIndexLoop runes pat k = some (-1) ∧ ∀ t, t < k → ¬OccursAt runes pat t) ∨
    (∃ t : Nat, findLastRuneIndexLoop runes pat k = some (t : Int) ∧ t < k ∧
      OccursAt runes pat t ∧ ∀ u, t < u → u < k → ¬OccursAt runes pat u) := by
  induction k with
  | zero =>
    left
    exact ⟨rfl, fun t h1 => by omega⟩
  | succ k ih =>
    have h : k + 1 + pat.length ≤ runes.length + 1 := by omega
    have hm := matchLoop_eq runes k pat 0 (by omega)
    simp only [findLastRuneIndexLoop]
    rw [hm]
    by_cases ho : OccursAt runes pat k
    · right
      refine ⟨k, ?_, by omega, ho, fun u h1 h2 => by omega⟩
      have : decide (pat <+: List.drop (k + 0) runes) = true := by simpa [OccursAt] using ho
      rw [this]
    · have : decide (pat <+: List.drop (k + 0) runes) = false := by simpa [OccursAt] using ho
      rw [this]
      dsimp only
      rcases ih (by omega) with ⟨h1, h2⟩ | ⟨t, h1, h2, h3, h4⟩
      · left
        refine ⟨h1, fun t ht => ?_⟩
        by_cases e : t = k
        · rw [e]; exact ho
        · exact h2 t (by omega)
      · right
        refine ⟨t, h1, by omega, h3, fun u hu1 hu2 => ?_⟩
        by_cases e : u = k
        · rw [e]; exact ho
        · exact h4 u hu1 (by omega)

/-- The two searches on a non-empty pattern: both report `-1` when there is no occurrence, and
otherwise the least and the greatest index of an occurrence. -/
theorem findRuneIndex_spec (runes pat : List Nat) (hp : pat ≠ []) :
    (findRuneIndex runes pat = some (-1) ∧ findLastRuneIndex runes pat = some (-1) ∧
      ∀ t, ¬OccursAt runes pat t) ∨
    (∃ a b : Nat, findRuneIndex runes pat = some (a : Int) ∧
      findLastRuneIndex runes pat = some (b : Int) ∧ OccursAt runes pat a ∧
      OccursAt runes pat b ∧ ∀ t, OccursAt runes pat t → a ≤ t ∧ t ≤ b) := by
  have hlen : pat.length ≠ 0 := by
    cases pat with
    | nil => exact absurd rfl hp
    | cons a l => simp
  have hb := fun t (h : OccursAt runes pat t) => OccursAt_bound runes pat t hp h
  simp only [findRuneIndex, findLastRuneIndex, if_neg hlen]
  rcases findRuneIndexLoop_spec runes pat (runes.length + 1 - pat.length) 0 (by omega) with
    ⟨h1, h2⟩ | ⟨a, h1, _, h3, h4, h5⟩
  · have hno : ∀ t, ¬OccursAt runes pat t := fun t ht =>
      h2 t (by omega) (by have := hb t ht; omega) ht
    left
    refine ⟨h1, ?_, hno⟩
    rcases findLastRuneIndexLoop_spec runes pat (runes.length + 1 - pat.length) (by omega) with
      ⟨g1, _⟩ | ⟨b, _, _, g3, _⟩
    · exact g1
    · exact absurd g3 (hno b)
  · right
    rcases findLastRuneIndexLoop_spec runes pat (runes.length + 1 - pat.length) (by omega) with
      ⟨_, g2⟩ | ⟨b, g1, g2, g3, g4⟩
    · exact absurd h4 (g2 a (by omega))
    · refine ⟨a, b, h1, g1, h4, g3, fun t ht => ⟨?_, ?_⟩⟩
      · by_contra hlt
        exact h5 t (by omega) (by omega) ht
      · by_contra hlt
        exact g4 t (by omega) (by have := hb t ht; omega) ht

theorem goIndex_natCast {α : Type} (xs : List α) (i : Nat) : goIndex xs (i : Int) = xs[i]? := by
  unfold goIndex
  rw [if_neg (by omega)]
  simp

/-- The matcher either fails, when the kept runes of the pattern do not occur exactly once in
the kept runes of the content, or returns the recorded span ends of the single occurrence. -/
theorem findMatch_cases (c p : GoString) :
    (findMatchIgnoringWhitespaceEnhanced c p = some (0, 0, false) ∧
      ¬(keptRunes p ≠ [] ∧ ∃! i, OccursAt (keptRunes c) (keptRunes p) i)) ∨
    (∃ (a : Nat) (fi la : RuneInfo), keptRunes p ≠ [] ∧
      OccursAt (keptRunes c) (keptRunes p) a ∧
      (∀ t, OccursAt (keptRunes c) (keptRunes p) t → t = a) ∧
      (spansFrom (rangeRunes c) 0)[a]? = some fi ∧
      (spansFrom (rangeRunes c) 0)[a + (keptRunes p).length - 1]? = some la ∧
      findMatchIgnoringWhitespaceEnhanced c p = some (fi.Start, la.End, true)) := by
  unfold findMatchIgnoringWhitespaceEnhanced
  simp only [buildIndexMapEnhanced_eq, rangeRunes_removeWhitespace,
    rangeRunes_encodeRunes _ (keptRunes_valid c)]
  by_cases hp : keptRunes p = []
  · left
    have h0 : (removeWhitespace p).length = 0 := by
      rw [removeWhitespace_eq, hp]; rfl
    rw [if_pos h0]
    exact ⟨rfl, fun h => h.1 hp⟩
  · have h0 : ¬(removeWhitespace p).length = 0 := by
      rw [removeWhitespace_eq, List.length_eq_zero, encodeRunes_eq_nil]; exact hp
    rw [if_neg h0]
    rcases findRuneIndex_spec (keptRunes c) (keptRunes p) hp with
      ⟨h1, _, h3⟩ | ⟨a, b, h1, h2, h3, h4, h5⟩
    · left
      rw [h1]
      refine ⟨by simp, fun h => ?_⟩
      obtain ⟨i, hi, _⟩ := h.2
      exact h3 i hi
    · rw [h1, h2]
      have hna : ¬((a : Int) = -1) := by omega
      dsimp only
      rw [if_neg hna]
      by_cases hab : a = b
      · right
        subst hab
        have hb := OccursAt_bound _ _ a hp h3
        have hlen : (spansFrom (rangeRunes c) 0).length = (keptRunes c).length :=
          spansFrom_length _ _
        have hpl : 1 ≤ (keptRunes p).length := by
          cases hk : keptRunes p with
          | nil => exact absurd hk hp
          | cons x l => simp
        have ha : a < (spansFrom (rangeRunes c) 0).length := by omega
        have hl : a + (keptRunes p).length - 1 < (spansFrom (rangeRunes c) 0).length := by omega
        refine ⟨a, (spansFrom (rangeRunes c) 0)[a],
          (spansFrom (rangeRunes c) 0)[a + (keptRunes p).length - 1], hp, h3,
          fun t ht => by have := h5 t ht; omega, List.getElem?_eq_getElem ha,
          List.getElem?_eq_getElem hl, ?_⟩
        rw [if_neg (by simp)]
        have e : (a : Int) + ((keptRunes p).length : Int) - 1 =
            ((a + (keptRunes p).length - 1 : Nat) : Int) := by omega
        rw [e, goIndex_natCast, goIndex_natCast, List.getElem?_eq_getElem ha,
          List.getElem?_eq_getElem hl]
      · left
        have hne : ¬((a : Int) = (b : Int)) := by omega
        rw [if_pos hne]
        refine ⟨rfl, fun h => ?_⟩
        obtain ⟨i, _, hu⟩ := h.2
        exact hab ((hu a h3).trans (hu b h4).symm)

/-! ## Lemmas on the recorded byte spans -/

theorem encodeRunes_length_cons (r : Nat) (rs : List Nat) :
    ((encodeRunes (r :: rs)).length : Int) = (encodeRune r).length + (encodeRunes rs).length := by
  rw [encodeRunes_cons, List.length_append]; push_cast; rfl

/-- The spans recorded for `m ≥ 1` consecutive kept runes starting with the kept rune of index
`f`: the content splits as `pre ++ mid ++ post`, the first span starts where the encoding of
`pre` ends and the last span ends where the encoding of `mid` ends. -/
theorem spansFrom_decomp (rs : List Nat) (hv : ∀ r ∈ rs, ValidRune r) (idx : Int) (f m : Nat)
    (hm : 1 ≤ m) (hfm : f + m ≤ (rs.filter kept).length) :
    ∃ pre mid post fi la, rs = pre ++ mid ++ post ∧ (pre.filter kept).length = f ∧
      mid.filter kept = ((rs.filter kept).drop f).take m ∧
      (spansFrom rs idx)[f]? = some fi ∧ (spansFrom rs idx)[f + m - 1]? = some la ∧
      fi.Start = idx + (encodeRunes pre).length ∧
      la.End = idx + (encodeRunes pre).length + (encodeRunes mid).length := by
  induction rs generalizing idx f m with
  | nil => simp at hfm; omega
  | cons r rs ih =>
    have hr : RuneLen r = (encodeRune r).length := RuneLen_eq_length r (hv r (by simp))
    have hv' : ∀ x ∈ rs, ValidRune x := fun x hx => hv x (by simp [hx])
    by_cases hk : kept r = true
    · have hk' : (!isWhitespaceExceptNewline r) = true := hk
      have hs : spansFrom (r :: rs) idx =
          { Start := idx, End := idx + RuneLen r } :: spansFrom rs (idx + RuneLen r) := by
        simp only [spansFrom]; rw [if_pos hk']
      have hf : (r :: rs).filter kept = r :: rs.filter kept := List.filter_cons_of_pos hk
      rw [hf] at hfm
      rw [hf, hs]
      simp only [List.length_cons] at hfm
      cases f with
      | succ f' =>
        obtain ⟨pre, mid, post, fi, la, h1, h2, h3, h4, h5, h6, h7⟩ :=
          ih hv' (idx + RuneLen r) f' m hm (by omega)
        refine ⟨r :: pre, mid, post, fi, la, by simp [h1], ?_, by simpa using h3, ?_, ?_, ?_, ?_⟩
        · rw [List.filter_cons_of_pos hk, List.length_cons, h2]
        · simpa using h4
        · have e : f' + 1 + m - 1 = (f' + m - 1) + 1 := by omega
          rw [e]; simpa using h5
        · rw [h6, encodeRunes_length_cons, hr]; ring
        · rw [h7, encodeRunes_length_cons, hr]; ring
      | zero =>
        match m, hm, hfm with
        | 1, _, _ =>
          refine ⟨[], [r], rs, ⟨idx, idx + RuneLen r⟩, ⟨idx, idx + RuneLen r⟩, by simp, by simp,
            by simp [List.filter_cons_of_pos hk], by simp, by simp, by simp [encodeRunes], ?_⟩
          rw [encodeRunes_length_cons, hr]; simp [encodeRunes]
        | m'' + 2, _, hfm =>
          obtain ⟨pre, mid, post, fi, la, h1, h2, h3, h4, h5, h6, h7⟩ :=
            ih hv' (idx + RuneLen r) 0 (m'' + 1) (by omega) (by omega)
          have hpre : pre.filter kept = [] := List.length_eq_zero.mp h2
          refine ⟨[], r :: pre ++ mid, post, ⟨idx, idx + RuneLen r⟩, la, by simp [h1], by simp,
            ?_, by simp, ?_, by simp [encodeRunes], ?_⟩
          · rw [List.cons_append, List.filter_cons_of_pos hk, List.filter_append, hpre, h3]
            simp
          · have e : 0 + (m'' + 2) - 1 = (0 + (m'' + 1) - 1) + 1 := by omega
            rw [e]; simpa using h5
          · rw [h7, List.cons_append, encodeRunes_length_cons, encodeRunes_append,
              List.length_append, hr]
            simp only [encodeRunes_nil, List.length_nil]
            push_cast; ring
    · have hk' : ¬(!isWhitespaceExceptNewline r) = true := hk
      have hs : spansFrom (r :: rs) idx = spansFrom rs (idx + RuneLen r) := by
        simp only [spansFrom]; rw [if_neg hk']
      have hf : (r :: rs).filter kept = rs.filter kept := List.filter_cons_of_neg hk
      rw [hf] at hfm
      rw [hf, hs]
      obtain ⟨pre, mid, post, fi, la, h1, h2, h3, h4, h5, h6, h7⟩ :=
        ih hv' (idx + RuneLen r) f m hm hfm
      refine ⟨r :: pre, mid, post, fi, la, by simp [h1], ?_, h3, h4, h5, ?_, ?_⟩
      · rw [List.filter_cons_of_neg hk, h2]
      · rw [h6, encodeRunes_length_cons, hr]; ring
      · rw [h7, encodeRunes_length_cons, hr]; ring

/-! ## Lemmas on valid UTF-8 content -/

theorem validAux_drop (k : Nat) (l : GoString) : validAux k l = validAux 0 (l.drop k) := by
  induction l generalizing k with
  | nil => simp [validAux]
  | cons b rest ih =>
    cases k with
    | zero => simp
    | succ k => simp only [validAux, List.drop_succ_cons]; exact ih k

theorem ValidString_cons (b : Nat) (rest : GoString) (h : ValidString (b :: rest) = true) :
    ¬((decodeRune (b :: rest)).2 = 1 ∧ 0x80 ≤ b) ∧
      ValidString ((b :: rest).drop (decodeRune (b :: rest)).2) = true := by
  have hw := decodeRune_width_pos b rest
  obtain ⟨w, hw'⟩ : ∃ w, (decodeRune (b :: rest)).2 = w + 1 := ⟨_, (Nat.sub_add_cancel hw).symm⟩
  simp only [ValidString, validAux] at h ⊢
  by_cases hc : (decodeRune (b :: rest)).2 = 1 ∧ 0x80 ≤ b
  · rw [if_pos hc] at h; exact absurd h (by simp)
  · rw [if_neg hc, validAux_drop, hw'] at h
    refine ⟨hc, ?_⟩
    rw [hw']
    simpa using h

/-- A valid UTF-8 string is the encoding of the runes that ranging over it yields. -/
theorem ValidString_eq_encodeRunes : (c : GoString) → ValidString c = true →
    c = encodeRunes (rangeRunes c)
  | [], _ => rfl
  | b :: rest, h => by
    have h1 := ValidString_cons b rest h
    have h2 := encodeRune_decodeRune b rest h1.1
    have ih := ValidString_eq_encodeRunes _ h1.2
    rw [rangeRunes_cons, encodeRunes_cons, ← ih]
    exact h2
termination_by c => c.length
decreasing_by exact drop_decodeRune_lt _ _

theorem encodeRune_head (r : Nat) : ∃ b tl, encodeRune r = b :: tl ∧ RuneStart b = true := by
  unfold encodeRune
  split
  · exact ⟨r, [], rfl, by simp [RuneStart]; omega⟩
  split
  · exact ⟨_, _, rfl, by simp [RuneStart]⟩
  split
  · exact ⟨_, _, rfl, by simp [RuneStart]⟩
  split
  · exact ⟨_, _, rfl, by simp [RuneStart]; omega⟩
  · exact ⟨_, _, rfl, by simp [RuneStart]; omega⟩

/-- The end of the encoding of a prefix of the runes is a character boundary. -/
theorem OnCharBoundary_encodeRunes (pre post : List Nat) :
    OnCharBoundary (encodeRunes (pre ++ post)) ((encodeRunes pre).length : Int) := by
  refine ⟨by omega, ?_⟩
  rw [encodeRunes_append]
  cases post with
  | nil => left; simp [encodeRunes]
  | cons x post =>
    right
    obtain ⟨b, tl, hb, hs⟩ := encodeRune_head x
    refine ⟨b, tl ++ encodeRunes post, ?_, hs⟩
    rw [Int.toNat_ofNat, List.drop_left, encodeRunes_cons, hb]
    rfl

/-- On valid UTF-8 content a successful match splits the runes of the content as
`pre ++ mid ++ post`: the kept runes of `mid` are the kept runes of the pattern, `start` is the
byte length of `pre` and `stop` is the byte length of `pre ++ mid`. -/
theorem findMatch_valid_decomp (c p : GoString) (hv : ValidString c = true) (start stop : Int)
    (h : findMatchIgnoringWhitespaceEnhanced c p = some (start, stop, true)) :
    ∃ pre mid post, c = encodeRunes pre ++ encodeRunes mid ++ encodeRunes post ∧
      (∀ r ∈ mid, ValidRune r) ∧ mid ≠ [] ∧
      mid.filter kept = keptRunes p ∧ keptRunes p ≠ [] ∧
      start = (encodeRunes pre).length ∧
      stop = ((encodeRunes pre).length : Int) + (encodeRunes mid).length := by
  rcases findMatch_cases c p with ⟨h1, _⟩ | ⟨a, fi, la, hp, ho, _, hfi, hla, h1⟩
  · rw [h1] at h; simp at h
  · rw [h1] at h
    simp only [Option.some.injEq, Prod.mk.injEq, and_true] at h
    have hpl : 1 ≤ (keptRunes p).length := by
      cases hk : keptRunes p with
      | nil => exact absurd hk hp
      | cons x l => simp
    have hb := OccursAt_bound _ _ a hp ho
    obtain ⟨pre, mid, post, fi', la', e1, _, e3, e4, e5, e6, e7⟩ :=
      spansFrom_decomp (rangeRunes c) (rangeRunes_valid c) 0 a (keptRunes p).length hpl hb
    rw [hfi] at e4
    rw [hla] at e5
    simp only [Option.some.injEq] at e4 e5
    subst e4 e5
    have hmid : mid.filter kept = keptRunes p := by
      rw [e3]
      exact List.prefix_iff_eq_take.mp ho |>.symm
    refine ⟨pre, mid, post, ?_, ?_, ?_, hmid, hp, ?_, ?_⟩
    · have := ValidString_eq_encodeRunes c hv
      rw [e1, encodeRunes_append, encodeRunes_append] at this
      exact this
    · intro r hr
      exact rangeRunes_valid c r (by rw [e1]; simp [hr])
    · intro hm
      rw [hm] at hmid
      exact hp hmid.symm
    · rw [← h.1, e6]; simp
    · rw [← h.2, e7]; simp

/-! ## Lemmas on newline characters -/

theorem countNewlines_append (xs ys : GoString) :
    countNewlines (xs ++ ys) = countNewlines xs + countNewlines ys := by
  simp [countNewlines]

theorem deleteNewlines_append (xs ys : GoString) :
    deleteNewlines (xs ++ ys) = deleteNewlines xs ++ deleteNewlines ys := by
  simp [deleteNewlines]

theorem isNewlineByte_of_ge (x : Nat) (h : 0x80 ≤ x) : isNewlineByte x = false := by
  simp only [isNewlineByte, Bool.or_eq_false_iff, beq_eq_false_iff_ne]; omega

theorem countNewlines_nil : countNewlines [] = 0 := rfl

theorem countNewlines_cons_ge (x : Nat) (l : GoString) (h : 0x80 ≤ x) :
    countNewlines (x :: l) = countNewlines l := by
  simp [countNewlines, List.countP_cons, isNewlineByte_of_ge x h]

theorem countNewlines_singleton (x : Nat) :
    countNewlines [x] = if isNewlineByte x = true then 1 else 0 := by
  simp [countNewlines, List.countP_cons]

theorem countNewlines_encodeRune (r : Nat) :
    countNewlines (encodeRune r) = if isNewlineByte r = true then 1 else 0 := by
  unfold encodeRune
  split
  · exact countNewlines_singleton r
  · have hr : isNewlineByte r = false := isNewlineByte_of_ge r (by omega)
    rw [hr, if_neg Bool.false_ne_true]
    repeat' split
    all_goals
      repeat rw [countNewlines_cons_ge _ _ (by omega)]
      rfl

theorem countNewlines_encodeRunes (rs : List Nat) :
    countNewlines (encodeRunes rs) = rs.countP isNewlineByte := by
  induction rs with
  | nil => rfl
  | cons r rs ih =>
    rw [encodeRunes_cons, countNewlines_append, ih, countNewlines_encodeRune, List.countP_cons]
    omega

theorem kept_of_isNewlineByte (r : Nat) (h : isNewlineByte r = true) : kept r = true := by
  simp only [isNewlineByte, Bool.or_eq_true, beq_iff_eq] at h
  rcases h with h | h <;> subst h <;> decide

theorem countP_isNewlineByte_filter_kept (rs : List Nat) :
    (rs.filter kept).countP isNewlineByte = rs.countP isNewlineByte := by
  induction rs with
  | nil => rfl
  | cons r rs ih =>
    by_cases hk : kept r = true
    · rw [List.filter_cons_of_pos hk, List.countP_cons, List.countP_cons, ih]
    · rw [List.filter_cons_of_neg hk, List.countP_cons, ih]
      have : ¬isNewlineByte r = true := fun h => hk (kept_of_isNewlineByte r h)
      simp [this]

/-- The bytes consumed by a decoding step hold a newline character exactly when the decoded
rune is one. -/
theorem countNewlines_take_decodeRune (b : Nat) (rest : GoString) :
    countNewlines ((b :: rest).take (decodeRune (b :: rest)).2) =
      if isNewlineByte (decodeRune (b :: rest)).1 = true then 1 else 0 := by
  rcases decodeRune_cases b rest with h | h | h | h | h
  · rw [h.2]; exact countNewlines_singleton b
  · rw [h.2]
    have e : isNewlineByte RuneError = false := by decide
    dsimp only
    rw [e, List.take_succ_cons, List.take_zero, countNewlines_cons_ge _ _ h.1]
    rfl
  · obtain ⟨b1, tail, rfl, h0, h0', h1, h1', hd⟩ := h
    rw [hd]
    dsimp only
    rw [isNewlineByte_of_ge _ (by omega), List.take_succ_cons, List.take_succ_cons,
      List.take_zero, countNewlines_cons_ge _ _ (by omega), countNewlines_cons_ge _ _ h1]
    rfl
  · obtain ⟨b1, b2, tail, rfl, h0, h0', h1, h1', h2, h2', hd⟩ := h
    have h3 : 0x80 ≤ b1 := le_trans (acceptLo_ge b) h1
    have h5 : b = 0xE0 → 0xA0 ≤ b1 := by intro h; subst h; exact h1
    have h7 : b1 ≤ 0xBF := le_trans h1' (acceptHi_le b)
    rw [hd]
    dsimp only
    rw [isNewlineByte_of_ge _ (by omega), List.take_succ_cons, List.take_succ_cons,
      List.take_succ_cons, List.take_zero, countNewlines_cons_ge _ _ (by omega),
      countNewlines_cons_ge _ _ h3, countNewlines_cons_ge _ _ h2]
    rfl
  · obtain ⟨b1, b2, b3, tail, rfl, h0, h0', h1, h1', h2, h2', h3, h3', hd⟩ := h
    have h4 : 0x80 ≤ b1 := le_trans (acceptLo_ge b) h1
    have h6 : b = 0xF0 → 0x90 ≤ b1 := by intro h; subst h; exact h1
    have h7 : b1 ≤ 0xBF := le_trans h1' (acceptHi_le b)
    rw [hd]
    dsimp only
    rw [isNewlineByte_of_ge _ (by omega), List.take_succ_cons, List.take_succ_cons,
      List.take_succ_cons, List.take_succ_cons, List.take_zero,
      countNewlines_cons_ge _ _ (by omega), countNewlines_cons_ge _ _ h4,
      countNewlines_cons_ge _ _ h2, countNewlines_cons_ge _ _ h3]
    rfl

theorem countNewlines_rangeRunes : (s : GoString) →
    (rangeRunes s).countP isNewlineByte = countNewlines s
  | [] => rfl
  | b :: rest => by
    have ih := countNewlines_rangeRunes ((b :: rest).drop (decodeRune (b :: rest)).2)
    have hsplit := List.take_append_drop (decodeRune (b :: rest)).2 (b :: rest)
    rw [rangeRunes_cons, List.countP_cons, ih]
    conv_rhs => rw [← hsplit, countNewlines_append, countNewlines_take_decodeRune]
    omega
termination_by s => s.length
decreasing_by exact drop_decodeRune_lt _ _

/-- Normalization keeps every newline and carriage-return character. -/
theorem countNewlines_removeWhitespace (s : GoString) :
    countNewlines (removeWhitespace s) = countNewlines s := by
  rw [removeWhitespace_eq, countNewlines_encodeRunes, keptRunes,
    countP_isNewlineByte_filter_kept, countNewlines_rangeRunes]

theorem eq_nil_of_newline_free_and_only (l : GoString) (h1 : deleteNewlines l = [])
    (h2 : countNewlines l = 0) : l = [] := by
  induction l with
  | nil => rfl
  | cons x l _ =>
    exfalso
    by_cases hx : isNewlineByte x = true
    · simp [countNewlines, List.countP_cons, hx] at h2
    · simp [deleteNewlines, List.filter_cons, hx] at h1

/-! ## Lemmas on the world operations -/

@[simp] theorem World.emit_mkdirFault (w : World) (e : Event) :
    (w.emit e).mkdirFault = w.mkdirFault := rfl

@[simp] theorem World.emit_writeFault (w : World) (e : Event) :
    (w.emit e).writeFault = w.writeFault := rfl

@[simp] theorem World.emit_historyCreateFault (w : World) (e : Event) :
    (w.emit e).historyCreateFault = w.historyCreateFault := rfl

@[simp] theorem World.emit_historyVersionFault (w : World) (e : Event) :
    (w.emit e).historyVersionFault = w.historyVersionFault := rfl

@[simp] theorem World.MkdirAll_mkdirFault (w : World) (dir : String) :
    (w.MkdirAll dir).mkdirFault = w.mkdirFault := by
  unfold World.MkdirAll; split <;> rfl

@[simp] theorem World.MkdirAll_writeFault (w : World) (dir : String) :
    (w.MkdirAll dir).writeFault = w.writeFault := by
  unfold World.MkdirAll; split <;> rfl

@[simp] theorem World.MkdirAll_historyCreateFault (w : World) (dir : String) :
    (w.MkdirAll dir).historyCreateFault = w.historyCreateFault := by
  unfold World.MkdirAll; split <;> rfl

@[simp] theorem World.MkdirAll_historyVersionFault (w : World) (dir : String) :
    (w.MkdirAll dir).historyVersionFault = w.historyVersionFault := by
  unfold World.MkdirAll; split <;> rfl

@[simp] theorem World.WriteFile_mkdirFault (w : World) (path : String) (content : GoString) :
    (w.WriteFile path content).mkdirFault = w.mkdirFault := by
  unfold World.WriteFile; split <;> rfl

@[simp] theorem World.WriteFile_writeFault (w : World) (path : String) (content : GoString) :
    (w.WriteFile path content).writeFault = w.writeFault := by
  unfold World.WriteFile; split <;> rfl

@[simp] theorem World.WriteFile_historyCreateFault (w : World) (path : String) (content : GoString) :
    (w.WriteFile path content).historyCreateFault = w.historyCreateFault := by
  unfold World.WriteFile; split <;> rfl

@[simp] theorem World.WriteFile_historyVersionFault (w : World) (path : String) (content : GoString) :
    (w.WriteFile path content).historyVersionFault = w.historyVersionFault := by
  unfold World.WriteFile; split <;> rfl

@[simp] theorem World.historyCreate_mkdirFault (w : World) (sessionID path : String) (content : GoString) :
    (w.historyCreate sessionID path content).mkdirFault = w.mkdirFault := by
  unfold World.historyCreate; split <;> rfl

@[simp] theorem World.historyCreate_writeFault (w : World) (sessionID path : String) (content : GoString) :
    (w.historyCreate sessionID path content).writeFault = w.writeFault := by
  unfold World.historyCreate; split <;> rfl

@[simp] theorem World.historyCreate_historyCreateFault (w : World) (sessionID path : String) (content : GoString) :
    (w.historyCreate sessionID path content).historyCreateFault = w.historyCreateFault := by
  unfold World.historyCreate; split <;> rfl

@[simp] theorem World.historyCreate_historyVersionFault (w : World) (sessionID path : String) (content : GoString) :
    (w.historyCreate sessionID path content).historyVersionFault = w.historyVersionFault := by
  unfold World.historyCreate; split <;> rfl

@[simp] theorem World.historyCreateVersion_mkdirFault (w : World) (sessionID path : String) (content : GoString) :
    (w.historyCreateVersion sessionID path content).mkdirFault = w.mkdirFault := by
  unfold World.historyCreateVersion; split <;> rfl

@[simp] theorem World.historyCreateVersion_writeFault (w : World) (sessionID path : String) (content : GoString) :
    (w.historyCreateVersion sessionID path content).writeFault = w.writeFault := by
  unfold World.historyCreateVersion; split <;> rfl

@[simp] theorem World.historyCreateVersion_historyCreateFault (w : World) (sessionID path : String) (content : GoString) :
    (w.historyCreateVersion sessionID path content).historyCreateFault = w.historyCreateFault := by
  unfold World.historyCreateVersion; split <;> rfl

@[simp] theorem World.historyCreateVersion_historyVersionFault (w : World) (sessionID path : String) (content : GoString) :
    (w.historyCreateVersion sessionID path content).historyVersionFault = w.historyVersionFault := by
  unfold World.historyCreateVersion; split <;> rfl

@[simp] theorem World.recordFileWrite_mkdirFault (w : World) (path : String) :
    (w.recordFileWrite path).mkdirFault = w.mkdirFault := rfl

@[simp] theorem World.recordFileWrite_writeFault (w : World) (path : String) :
    (w.recordFileWrite path).writeFault = w.writeFault := rfl

@[simp] theorem World.recordFileWrite_historyCreateFault (w : World) (path : String) :
    (w.recordFileWrite path).historyCreateFault = w.historyCreateFault := rfl

@[simp] theorem World.recordFileWrite_historyVersionFault (w : World) (path : String) :
    (w.recordFileWrite path).historyVersionFault = w.historyVersionFault := rfl

@[simp] theorem World.recordFileRead_mkdirFault (w : World) (path : String) :
    (w.recordFileRead path).mkdirFault = w.mkdirFault := rfl

@[simp] theorem World.recordFileRead_writeFault (w : World) (path : String) :
    (w.recordFileRead path).writeFault = w.writeFault := rfl

@[simp] theorem World.recordFileRead_historyCreateFault (w : World) (path : String) :
    (w.recordFileRead path).historyCreateFault = w.historyCreateFault := rfl

@[simp] theorem World.recordFileRead_historyVersionFault (w : World) (path : String) :
    (w.recordFileRead path).historyVersionFault = w.historyVersionFault := rfl

@[simp] theorem World.emit_trace (w : World) (e : Event) : (w.emit e).trace = w.trace ++ [e] :=
  rfl

@[simp] theorem World.MkdirAll_trace (w : World) (dir : String) :
    (w.MkdirAll dir).trace = w.trace ++ [Event.mkdirAll dir (!w.mkdirFault)] := by
  unfold World.MkdirAll; split <;> simp_all [World.emit]

@[simp] theorem World.WriteFile_trace (w : World) (path : String) (content : GoString) :
    (w.WriteFile path content).trace =
      w.trace ++ [Event.writeFile path content (!w.writeFault)] := by
  unfold World.WriteFile; split <;> simp_all [World.emit]

@[simp] theorem World.historyCreate_trace (w : World) (sessionID path : String)
    (content : GoString) :
    (w.historyCreate sessionID path content).trace =
      w.trace ++ [Event.historyCreate sessionID path content (!w.historyCreateFault)] := by
  unfold World.historyCreate; split <;> simp_all [World.emit]

@[simp] theorem World.historyCreateVersion_trace (w : World) (sessionID path : String)
    (content : GoString) :
    (w.historyCreateVersion sessionID path content).trace =
      w.trace ++ (if w.historyVersionFault then
        [Event.historyCreateVersion sessionID path content false, Event.logDebug]
        else [Event.historyCreateVersion sessionID path content true]) := by
  unfold World.historyCreateVersion; split <;> simp_all [World.emit]

@[simp] theorem World.recordFileWrite_trace (w : World) (path : String) :
    (w.recordFileWrite path).trace = w.trace ++ [Event.recordFileWrite path] := rfl

@[simp] theorem World.recordFileRead_trace (w : World) (path : String) :
    (w.recordFileRead path).trace = w.trace ++ [Event.recordFileRead path] := rfl

theorem effects_of_trace (o : Outcome) (w : World) (evs : List Event)
    (h : o.trace = w.trace ++ evs) : o.effects w = evs := by
  unfold Outcome.effects; rw [h]; simp

theorem probe_cases (e : Event) (h : e.isProbe = true) :
    (∃ p, e = Event.stat p) ∨ ∃ p ok, e = Event.readFile p ok := by
  cases e <;> simp [Event.isProbe] at h
  · exact Or.inl ⟨_, rfl⟩
  · exact Or.inr ⟨_, _, rfl⟩

theorem ordered_probe_append (pre evs : List Event) (h : pre.all Event.isProbe = true)
    (g wr : Bool) : ordered g wr (pre ++ evs) = ordered g wr evs := by
  induction pre with
  | nil => rfl
  | cons e pre ih =>
    simp only [List.all_cons, Bool.and_eq_true] at h
    rcases probe_cases e h.1 with ⟨p, rfl⟩ | ⟨p, ok, rfl⟩ <;>
      simp only [List.cons_append, ordered] <;> exact ih h.2

theorem deniedIn_probe_append (pre evs : List Event) (h : pre.all Event.isProbe = true) :
    deniedIn (pre ++ evs) = deniedIn evs := by
  induction pre with
  | nil => rfl
  | cons e pre ih =>
    simp only [List.all_cons, Bool.and_eq_true] at h
    rcases probe_cases e h.1 with ⟨p, rfl⟩ | ⟨p, ok, rfl⟩ <;>
      simp only [List.cons_append, deniedIn] <;> exact ih h.2

theorem writeFailedIn_probe_append (pre evs : List Event) (h : pre.all Event.isProbe = true) :
    writeFailedIn (pre ++ evs) = writeFailedIn evs := by
  induction pre with
  | nil => rfl
  | cons e pre ih =>
    simp only [List.all_cons, Bool.and_eq_true] at h
    rcases probe_cases e h.1 with ⟨p, rfl⟩ | ⟨p, ok, rfl⟩ <;>
      simp only [List.cons_append, writeFailedIn] <;> exact ih h.2

theorem noWrite_probe_append (pre evs : List Event) (h : pre.all Event.isProbe = true) :
    noWrite (pre ++ evs) = noWrite evs := by
  induction pre with
  | nil => rfl
  | cons e pre ih =>
    simp only [List.all_cons, Bool.and_eq_true] at h
    unfold noWrite at ih ⊢
    rcases probe_cases e h.1 with ⟨p, rfl⟩ | ⟨p, ok, rfl⟩ <;>
      simp only [List.cons_append, List.all_cons, Event.isWrite, Bool.not_false,
        Bool.true_and] <;> exact ih h.2

theorem noUpdate_probe_append (pre evs : List Event) (h : pre.all Event.isProbe = true) :
    noUpdate (pre ++ evs) = noUpdate evs := by
  induction pre with
  | nil => rfl
  | cons e pre ih =>
    simp only [List.all_cons, Bool.and_eq_true] at h
    unfold noUpdate at ih ⊢
    rcases probe_cases e h.1 with ⟨p, rfl⟩ | ⟨p, ok, rfl⟩ <;>
      simp only [List.cons_append, List.all_cons, Event.isUpdate, Bool.not_false,
        Bool.true_and] <;> exact ih h.2

/-- Effects that only inspect the file system do not change the write discipline. -/
theorem Discipline_probe_append (pre evs : List Event)
    (res : Option (ToolResponse × Option GoError)) (h : pre.all Event.isProbe = true)
    (hd : Discipline evs res) : Discipline (pre ++ evs) res := by
  unfold Discipline at hd ⊢
  rw [ordered_probe_append pre evs h, deniedIn_probe_append pre evs h,
    writeFailedIn_probe_append pre evs h, noWrite_probe_append pre evs h,
    noUpdate_probe_append pre evs h]
  exact hd

theorem Discipline_probe (pre : List Event) (res : Option (ToolResponse × Option GoError))
    (h : pre.all Event.isProbe = true) : Discipline pre res := by
  have := Discipline_probe_append pre [] res h
    (by simp [Discipline, ordered, deniedIn, writeFailedIn, noUpdate])
  simpa using this

/-- The common opening only inspects the file system: it adds `os.Stat`, and `os.ReadFile`
when the staleness guard passes. -/
theorem locateMatch_trace (env : Env) (w : World) (filePath : String) (oldString : GoString) :
    (locateMatch env w filePath oldString).world.trace = w.trace ++ [Event.stat filePath] ∨
    ∃ ok, (locateMatch env w filePath oldString).world.trace =
      w.trace ++ [Event.stat filePath, Event.readFile filePath ok] := by
  unfold locateMatch
  repeat' split
  all_goals simp [Located.world]

set_option maxHeartbeats 1000000 in
theorem createNewFile_discipline (env : Env) (w : World) (filePath : String)
    (content : GoString) :
    (createNewFile env w filePath content).trace =
        w.trace ++ (createNewFile env w filePath content).effects w ∧
      Discipline ((createNewFile env w filePath content).effects w)
        (createNewFile env w filePath content).result := by
  unfold createNewFile Outcome.effects
  cases hv : w.historyVersionFault <;>
  repeat' split
  all_goals
    simp_all [Outcome.trace, Outcome.world, Outcome.result, Discipline, ordered, deniedIn,
      writeFailedIn, noWrite, noUpdate, Event.isWrite, Event.isUpdate]

theorem applyEdit_discipline (env : Env) (w : World) (filePath : String)
    (oldContent newContent : GoString) (description successText : String) :
    (applyEdit env w filePath oldContent newContent description successText).trace =
        w.trace ++
          (applyEdit env w filePath oldContent newContent description successText).effects w ∧
      Discipline
        ((applyEdit env w filePath oldContent newContent description successText).effects w)
        (applyEdit env w filePath oldContent newContent description successText).result := by
  unfold applyEdit recordVersions Outcome.effects
  cases hv : w.historyVersionFault <;>
  repeat' split
  all_goals
    simp_all [Outcome.trace, Outcome.world, Outcome.result, Discipline, ordered, deniedIn,
      writeFailedIn, noWrite, noUpdate, Event.isWrite, Event.isUpdate]

/-- A transaction that continues from the world `w1` of the common opening. -/
theorem discipline_after_probes (w w1 : World) (o : Outcome) (pre : List Event)
    (hpre : pre.all Event.isProbe = true) (hw1 : w1.trace = w.trace ++ pre)
    (ho : o.trace = w1.trace ++ o.effects w1 ∧ Discipline (o.effects w1) o.result) :
    o.trace = w.trace ++ o.effects w ∧ Discipline (o.effects w) o.result := by
  have h : o.trace = w.trace ++ (pre ++ o.effects w1) := by
    rw [← List.append_assoc, ← hw1]; exact ho.1
  rw [effects_of_trace o w _ h]
  exact ⟨h, Discipline_probe_append pre _ _ hpre ho.2⟩

theorem discipline_of_probes (w w1 : World) (o : Outcome) (pre : List Event)
    (hpre : pre.all Event.isProbe = true) (hw1 : w1.trace = w.trace ++ pre)
    (ho : o.world = w1) :
    o.trace = w.trace ++ o.effects w ∧ Discipline (o.effects w) o.result := by
  have h : o.trace = w.trace ++ pre := by rw [Outcome.trace, ho, hw1]
  rw [effects_of_trace o w _ h]
  exact ⟨h, Discipline_probe pre _ hpre⟩

theorem locateMatch_probes (env : Env) (w : World) (filePath : String) (oldString : GoString) :
    ∃ pre, pre.all Event.isProbe = true ∧
      (locateMatch env w filePath oldString).world.trace = w.trace ++ pre := by
  rcases locateMatch_trace env w filePath oldString with h | ⟨ok, h⟩
  · exact ⟨_, by simp [Event.isProbe], h⟩
  · exact ⟨_, by simp [Event.isProbe], h⟩

theorem deleteContent_discipline (env : Env) (w : World) (filePath : String)
    (oldString : GoString) :
    (deleteContent env w filePath oldString).trace =
        w.trace ++ (deleteContent env w filePath oldString).effects w ∧
      Discipline ((deleteContent env w filePath oldString).effects w)
        (deleteContent env w filePath oldString).result := by
  obtain ⟨pre, hpre, hw1⟩ := locateMatch_probes env w filePath oldString
  unfold deleteContent
  cases hl : locateMatch env w filePath oldString with
  | panic w1 =>
    rw [hl] at hw1
    exact discipline_of_probes w w1 _ pre hpre hw1 rfl
  | early r e w1 =>
    rw [hl] at hw1
    exact discipline_of_probes w w1 _ pre hpre hw1 rfl
  | found c start stop w1 =>
    rw [hl] at hw1
    dsimp only
    split
    · exact discipline_after_probes w w1 _ pre hpre hw1 (applyEdit_discipline _ _ _ _ _ _ _)
    · exact discipline_of_probes w w1 _ pre hpre hw1 rfl

theorem replaceContent_discipline (env : Env) (w : World) (filePath : String)
    (oldString newString : GoString) :
    (replaceContent env w filePath oldString newString).trace =
        w.trace ++ (replaceContent env w filePath oldString newString).effects w ∧
      Discipline ((replaceContent env w filePath oldString newString).effects w)
        (replaceContent env w filePath oldString newString).result := by
  obtain ⟨pre, hpre, hw1⟩ := locateMatch_probes env w filePath oldString
  unfold replaceContent
  cases hl : locateMatch env w filePath oldString with
  | panic w1 =>
    rw [hl] at hw1
    exact discipline_of_probes w w1 _ pre hpre hw1 rfl
  | early r e w1 =>
    rw [hl] at hw1
    exact discipline_of_probes w w1 _ pre hpre hw1 rfl
  | found c start stop w1 =>
    rw [hl] at hw1
    dsimp only
    split
    · split
      · exact discipline_of_probes w w1 _ pre hpre hw1 rfl
      · exact discipline_after_probes w w1 _ pre hpre hw1 (applyEdit_discipline _ _ _ _ _ _ _)
    · exact discipline_of_probes w w1 _ pre hpre hw1 rfl

theorem RuneLen_pos (r : Nat) (h : ValidRune r) : 1 ≤ RuneLen r := by
  rw [RuneLen_eq_length r h]
  have := encodeRune_length_pos r
  omega

/-- The recorded spans are non-empty and increasing: a span starts at or after the running
byte index, and before the end of every later span. -/
theorem spansFrom_bounds (rs : List Nat) (hv : ∀ r ∈ rs, ValidRune r) (idx : Int) (i j : Nat)
    (fi la : RuneInfo) (hij : i ≤ j) (hi : (spansFrom rs idx)[i]? = some fi)
    (hj : (spansFrom rs idx)[j]? = some la) : idx ≤ fi.Start ∧ fi.Start < la.End := by
  induction rs generalizing idx i j fi la with
  | nil => simp [spansFrom] at hi
  | cons r rs ih =>
    have hr := RuneLen_pos r (hv r (by simp))
    have hv' : ∀ x ∈ rs, ValidRune x := fun x hx => hv x (by simp [hx])
    by_cases hk : (!isWhitespaceExceptNewline r) = true
    · simp only [spansFrom, if_pos hk] at hi hj
      cases i with
      | zero =>
        simp only [List.getElem?_cons_zero, Option.some.injEq] at hi
        subst hi
        cases j with
        | zero =>
          simp only [List.getElem?_cons_zero, Option.some.injEq] at hj
          subst hj
          dsimp only; omega
        | succ j =>
          simp only [List.getElem?_cons_succ] at hj
          have := ih hv' (idx + RuneLen r) j j la la (le_refl _) hj hj
          dsimp only; omega
      | succ i =>
        cases j with
        | zero => omega
        | succ j =>
          simp only [List.getElem?_cons_succ] at hi hj
          have := ih hv' (idx + RuneLen r) i j fi la (by omega) hi hj
          omega
    · simp only [spansFrom, if_neg hk] at hi hj
      have := ih hv' (idx + RuneLen r) i j fi la hij hi hj
      omega

/-- The offsets of a successful match satisfy `0 ≤ start < stop`, on any content. -/
theorem findMatch_start_lt_stop (c p : GoString) (start stop : Int)
    (h : findMatchIgnoringWhitespaceEnhanced c p = some (start, stop, true)) :
    0 ≤ start ∧ start < stop := by
  rcases findMatch_cases c p with ⟨h1, _⟩ | ⟨a, fi, la, hp, _, _, hfi, hla, h1⟩
  · rw [h1] at h; simp at h
  · rw [h1] at h
    simp only [Option.some.injEq, Prod.mk.injEq, and_true] at h
    have hpl : 1 ≤ (keptRunes p).length := by
      cases hk : keptRunes p with
      | nil => exact absurd hk hp
      | cons x l => simp
    have := spansFrom_bounds (rangeRunes c) (rangeRunes_valid c) 0 a _ fi la (by omega) hfi hla
    omega

theorem applyEdit_result_not_error (env : Env) (w : World) (filePath : String)
    (oldContent newContent : GoString) (description successText : String) (r : ToolResponse)
    (h : (applyEdit env w filePath oldContent newContent description successText).result =
      some (r, none)) : r.IsError = false := by
  unfold applyEdit recordVersions at h
  repeat' split at h
  all_goals
    simp only [Outcome.result, Option.some.injEq, Prod.mk.injEq, reduceCtorEq, and_false] at h
  all_goals
    rw [← h.1]; rfl

/-- The common opening on an existing file with a recorded, fresh read: the content is read
and matched. -/
theorem locateMatch_found (env : Env) (w : World) (filePath : String) (oldString c : GoString)
    (start stop : Int) (info : FileInfo) (hstat : w.Stat filePath = StatResult.ok info)
    (hdir : info.IsDir = false) (hread : w.getLastReadTime filePath ≠ 0)
    (hfresh : info.ModTime ≤ w.getLastReadTime filePath) (hc : w.ReadFile filePath = some c)
    (hm : findMatchIgnoringWhitespaceEnhanced c oldString = some (start, stop, true)) :
    locateMatch env w filePath oldString =
      Located.found c start stop
        ((w.emit (Event.stat filePath)).emit (Event.readFile filePath true)) := by
  unfold locateMatch
  rw [hstat]
  simp only [hdir, Bool.false_eq_true, if_false, if_neg hread, if_neg (not_lt.mpr hfresh), hc,
    hm]
  rfl

/-- The effects of `deleteContent` and `replaceContent` start with the effects of the common
opening. -/
theorem effects_split (w w1 : World) (o : Outcome) (pre : List Event)
    (hw1 : w1.trace = w.trace ++ pre) (ho : o.trace = w1.trace ++ o.effects w1) :
    o.effects w = pre ++ o.effects w1 := by
  apply effects_of_trace
  rw [← List.append_assoc, ← hw1]; exact ho


/-- The common opening on an existing file that is not a directory, when no read is recorded
or the file is newer than the recorded read: an error response after `os.Stat` only. -/
theorem locateMatch_stale (env : Env) (w : World) (filePath : String) (oldString : GoString)
    (info : FileInfo) (hstat : w.Stat filePath = StatResult.ok info) (hdir : info.IsDir = false)
    (hstale : w.getLastReadTime filePath = 0 ∨ info.ModTime > w.getLastReadTime filePath) :
    locateMatch env w filePath oldString =
      Located.early (NewTextErrorResponse (guardMessage env w filePath info)) none
        (w.emit (Event.stat filePath)) := by
  unfold locateMatch guardMessage
  rw [hstat]
  simp only [hdir, Bool.false_eq_true, if_false]
  by_cases h0 : w.getLastReadTime filePath = 0
  · rw [if_pos h0, if_pos h0]
  · rw [if_neg h0, if_neg h0]
    have : info.ModTime > w.getLastReadTime filePath := hstale.resolve_left h0
    rw [if_pos this]

/-- The common opening on an existing file that is not a directory, with a recorded read that
is not older than the file: the content is read. -/
theorem locateMatch_fresh (env : Env) (w : World) (filePath : String) (oldString : GoString)
    (info : FileInfo) (hstat : w.Stat filePath = StatResult.ok info) (hdir : info.IsDir = false)
    (hread : w.getLastReadTime filePath ≠ 0)
    (hfresh : info.ModTime ≤ w.getLastReadTime filePath) :
    ∃ ok, (locateMatch env w filePath oldString).world.trace =
      w.trace ++ [Event.stat filePath, Event.readFile filePath ok] := by
  unfold locateMatch
  rw [hstat]
  simp only [hdir, Bool.false_eq_true, if_false, if_neg hread, if_neg (not_lt.mpr hfresh)]
  repeat' split
  all_goals simp [Located.world]

theorem deleteContent_effects_split (env : Env) (w : World) (filePath : String)
    (oldString : GoString) (pre : List Event)
    (hw1 : (locateMatch env w filePath oldString).world.trace = w.trace ++ pre) :
    ∃ rest, (deleteContent env w filePath oldString).effects w = pre ++ rest := by
  unfold deleteContent
  cases hl : locateMatch env w filePath oldString with
  | panic w1 =>
    rw [hl] at hw1
    exact ⟨[], by rw [List.append_nil]; exact effects_of_trace _ _ _ hw1⟩
  | early r e w1 =>
    rw [hl] at hw1
    exact ⟨[], by rw [List.append_nil]; exact effects_of_trace _ _ _ hw1⟩
  | found c start stop w1 =>
    rw [hl] at hw1
    dsimp only
    split
    · exact ⟨_, effects_split w w1 _ pre hw1 (applyEdit_discipline _ _ _ _ _ _ _).1⟩
    · exact ⟨[], by rw [List.append_nil]; exact effects_of_trace _ _ _ hw1⟩

theorem replaceContent_effects_split (env : Env) (w : World) (filePath : String)
    (oldString newString : GoString) (pre : List Event)
    (hw1 : (locateMatch env w filePath oldString).world.trace = w.trace ++ pre) :
    ∃ rest, (replaceContent env w filePath oldString newString).effects w = pre ++ rest := by
  unfold replaceContent
  cases hl : locateMatch env w filePath oldString with
  | panic w1 =>
    rw [hl] at hw1
    exact ⟨[], by rw [List.append_nil]; exact effects_of_trace _ _ _ hw1⟩
  | early r e w1 =>
    rw [hl] at hw1
    exact ⟨[], by rw [List.append_nil]; exact effects_of_trace _ _ _ hw1⟩
  | found c start stop w1 =>
    rw [hl] at hw1
    dsimp only
    split
    · split
      · exact ⟨[], by rw [List.append_nil]; exact effects_of_trace _ _ _ hw1⟩
      · exact ⟨_, effects_split w w1 _ pre hw1 (applyEdit_discipline _ _ _ _ _ _ _).1⟩
    · exact ⟨[], by rw [List.append_nil]; exact effects_of_trace _ _ _ hw1⟩

theorem goSlice_prefix (c : GoString) (start : Int) (h0 : 0 ≤ start) (h1 : start ≤ c.length) :
    goSlice c 0 start = some (c.take start.toNat) := by
  unfold goSlice
  rw [if_pos ⟨le_refl _, h0, h1⟩]
  simp

theorem goSlice_suffix (c : GoString) (stop : Int) (h0 : 0 ≤ stop) (h1 : stop ≤ c.length) :
    goSlice c stop c.length = some (c.drop stop.toNat) := by
  unfold goSlice
  rw [if_pos ⟨h0, h1, le_refl _⟩]
  congr 1
  apply List.take_of_length_le
  simp only [List.length_drop, Int.toNat_ofNat]
  omega

theorem goSlice_middle (c : GoString) (start stop : Int) (h0 : 0 ≤ start) (h1 : start ≤ stop)
    (h2 : stop ≤ c.length) :
    goSlice c start stop = some ((c.drop start.toNat).take (stop.toNat - start.toNat)) ∧
      c = c.take start.toNat ++ (c.drop start.toNat).take (stop.toNat - start.toNat) ++
        c.drop stop.toNat := by
  constructor
  · unfold goSlice
    rw [if_pos ⟨h0, h1, h2⟩]
  · have e : stop.toNat = start.toNat + (stop.toNat - start.toNat) := by omega
    conv_rhs => rw [List.append_assoc]; arg 2; arg 2; rw [e, ← List.drop_drop]
    rw [List.take_append_drop, List.take_append_drop]

/-! ## Lemmas on `strings.TrimSpace` and the sanitizer -/

theorem decodeRune_ascii (b : Nat) (rest : GoString) (h : b < 0x80) :
    decodeRune (b :: rest) = (b, 1) := by
  simp only [decodeRune]; rw [if_pos h]

theorem IsSpace_RuneError : IsSpace RuneError = false := by decide

/-- The rune decoded at the head of a string is the rune decoded at the head of any extension
of the string, or `RuneError`. -/
theorem decodeRune_append (b : Nat) (vt w : GoString) :
    (decodeRune (b :: vt)).1 = (decodeRune (b :: (vt ++ w))).1 ∨
      (decodeRune (b :: vt)).1 = RuneError := by
  rcases decodeRune_cases b vt with h | h | h | h | h
  · left; rw [h.2, decodeRune_ascii b _ h.1]
  · right; rw [h.2]
  · obtain ⟨b1, tail, rfl, h0, h0', h1, h1', hd⟩ := h
    left
    rw [hd]
    simp only [List.cons_append, decodeRune]
    rw [if_neg (by omega), if_neg (by omega), if_pos h0', if_pos ⟨h1, h1'⟩]
  · obtain ⟨b1, b2, tail, rfl, h0, h0', h1, h1', h2, h2', hd⟩ := h
    left
    rw [hd]
    simp only [List.cons_append, decodeRune]
    rw [if_neg (by omega), if_neg (by omega), if_neg (by omega), if_pos h0',
      if_pos ⟨h1, h1'⟩, if_pos ⟨h2, h2'⟩]
  · obtain ⟨b1, b2, b3, tail, rfl, h0, h0', h1, h1', h2, h2', h3, h3', hd⟩ := h
    left
    rw [hd]
    simp only [List.cons_append, decodeRune]
    rw [if_neg (by omega), if_neg (by omega), if_neg (by omega), if_neg (by omega),
      if_pos h0', if_pos ⟨h1, h1'⟩, if_pos ⟨h2, h2'⟩, if_pos ⟨h3, h3'⟩]

theorem decodeRune_take (u : GoString) (i : Nat) (hi : 0 < i) :
    (decodeRune (u.take i)).1 = (decodeRune u).1 ∨ (decodeRune (u.take i)).1 = RuneError := by
  match u, i, hi with
  | [], _, _ => left; simp
  | b :: rest, i + 1, _ =>
    rw [List.take_succ_cons]
    have := decodeRune_append b (rest.take i) (rest.drop i)
    rw [List.take_append_drop] at this
    exact this

theorem NonSpaceHead_take (u : GoString) (i : Nat) (hi : 0 < i) (h : NonSpaceHead u) :
    NonSpaceHead (u.take i) := by
  refine ⟨?_, ?_⟩
  · intro he
    have := congrArg List.length he
    simp only [List.length_take, List.length_nil] at this
    have : u.length = 0 := by omega
    exact h.1 (List.length_eq_zero.mp this)
  · rcases decodeRune_take u i hi with e | e
    · rw [e]; exact h.2
    · rw [e]; exact IsSpace_RuneError

theorem scanBack_le (s : GoString) (lim : Int) (k : Nat) (start : Int) :
    scanBack s lim k start ≤ start := by
  induction k generalizing start with
  | zero => simp [scanBack]
  | succ k ih =>
    simp only [scanBack]
    split
    · split
      · exact le_refl _
      · have := ih (start - 1); omega
    · exact le_refl _

/-- The last rune of a non-empty string has a width between 1 and the length of the string,
and when it spans the whole string it is `RuneError` or the rune decoded at the head. -/
theorem DecodeLastRuneInString_spec (s : GoString) (hs : s ≠ []) :
    1 ≤ (DecodeLastRuneInString s).2 ∧ (DecodeLastRuneInString s).2 ≤ s.length ∧
      ((DecodeLastRuneInString s).2 = s.length →
        (DecodeLastRuneInString s).1 = RuneError ∨
          (DecodeLastRuneInString s).1 = (decodeRune s).1) := by
  have hlen : 1 ≤ s.length := by
    cases s with
    | nil => exact absurd rfl hs
    | cons a l => simp
  unfold DecodeLastRuneInString
  rw [if_neg (by omega)]
  split
  · rename_i hascii
    refine ⟨le_refl _, hlen, fun h => ?_⟩
    right
    dsimp only at h ⊢
    match s, h with
    | [c], _ =>
      simp only [List.length_singleton, Nat.sub_self, List.getD_cons_zero] at hascii ⊢
      rw [decodeRune_ascii c [] hascii]
  · dsimp only
    have hsb := scanBack_le s (if (s.length : Int) - 4 < 0 then 0 else (s.length : Int) - 4) 4
      ((s.length : Int) - 2)
    generalize scanBack s (if (s.length : Int) - 4 < 0 then 0 else (s.length : Int) - 4) 4
      ((s.length : Int) - 2) = start0 at hsb ⊢
    obtain ⟨start, hstart, hge, hlt⟩ : ∃ st : Int, (if start0 < 0 then (0 : Int) else start0) = st ∧
        0 ≤ st ∧ st < s.length :=
      ⟨_, rfl, by split <;> omega, by split <;> omega⟩
    rw [hstart]
    by_cases hc : start + ((decodeRune (s.drop start.toNat)).2 : Int) ≠ (s.length : Int)
    · rw [if_pos hc]
      exact ⟨le_refl _, hlen, fun _ => Or.inl rfl⟩
    · rw [if_neg hc]
      have hc' := not_not.mp hc
      refine ⟨by omega, by omega, fun h => ?_⟩
      right
      have h0 : start = 0 := by omega
      rw [h0]
      simp

/-- On a string whose first rune is not white space, the backward search for a rune that is
not white space succeeds. -/
theorem lastIndexFuncLoop_nonneg (u : GoString) (h : NonSpaceHead u) (fuel i : Nat)
    (hi : 0 < i) (hfuel : i ≤ fuel) :
    0 ≤ lastIndexFuncLoop u IsSpace false fuel i := by
  induction fuel generalizing i with
  | zero => omega
  | succ fuel ih =>
    simp only [lastIndexFuncLoop]
    rw [if_pos hi]
    have hne : u.take i ≠ [] := (NonSpaceHead_take u i hi h).1
    have hspec := DecodeLastRuneInString_spec (u.take i) hne
    split
    · omega
    · rename_i hsp
      have hsp' : IsSpace (DecodeLastRuneInString (u.take i)).1 = true := by
        cases hx : IsSpace (DecodeLastRuneInString (u.take i)).1 with
        | true => rfl
        | false => rw [hx] at hsp; simp at hsp
      have hlen : (u.take i).length ≤ i := by simp
      have hpos : 0 < i - (DecodeLastRuneInString (u.take i)).2 := by
        by_contra hcon
        have heq : (DecodeLastRuneInString (u.take i)).2 = (u.take i).length := by
          have h1 := hspec.2.1
          have h2 := hspec.1
          have h3 : (u.take i).length = i ∨ (u.take i).length = u.length := by
            simp only [List.length_take]; omega
          have h4 : (u.take i).length ≤ i := hlen
          rcases h3 with h3 | h3
          · omega
          · have : i - (DecodeLastRuneInString (u.take i)).2 = 0 := by omega
            have h5 : i ≤ (DecodeLastRuneInString (u.take i)).2 := by omega
            omega
        rcases hspec.2.2 heq with e | e
        · rw [e, IsSpace_RuneError] at hsp'; exact absurd hsp' (by simp)
        · rw [e, (NonSpaceHead_take u i hi h).2] at hsp'; exact absurd hsp' (by simp)
      exact ih _ hpos (by have := hspec.1; omega)

/-- On a string whose first rune is not white space, `TrimRightFunc` keeps a non-empty
prefix. -/
theorem TrimRightFunc_take (u : GoString) (h : NonSpaceHead u) :
    ∃ k, 0 < k ∧ TrimRightFunc u IsSpace = u.take k := by
  have hlen : 0 < u.length := by
    cases hu : u with
    | nil => exact absurd hu h.1
    | cons a l => simp
  have hi : 0 ≤ lastIndexFunc u IsSpace false :=
    lastIndexFuncLoop_nonneg u h u.length u.length hlen (le_refl _)
  unfold TrimRightFunc
  split
  · refine ⟨_, ?_, rfl⟩
    have hd : (u.drop (lastIndexFunc u IsSpace false).toNat) ≠ [] ∨
        (u.drop (lastIndexFunc u IsSpace false).toNat) = [] := by
      by_cases e : (u.drop (lastIndexFunc u IsSpace false).toNat) = []
      · exact Or.inr e
      · exact Or.inl e
    rcases hd with hd | hd
    · match hm : u.drop (lastIndexFunc u IsSpace false).toNat with
      | [] => exact absurd hm hd
      | b :: rest =>
        have := decodeRune_width_pos b rest
        omega
    · rename_i hcond
      have hge := hcond.2
      have hout : u.length ≤ (lastIndexFunc u IsSpace false).toNat := by
        have := congrArg List.length hd
        simp only [List.length_drop, List.length_nil] at this
        omega
      rw [List.getD_eq_default _ _ hout] at hge
      omega
  · exact ⟨_, by omega, rfl⟩

theorem TrimRightFunc_nil : TrimRightFunc [] IsSpace = [] := by decide

theorem asciiSpace_IsSpace (c : Nat) (h : c < 0x80) : IsSpace c = asciiSpace c := by
  unfold IsSpace asciiSpace
  rw [if_pos (by omega)]
  simp only [decide_eq_decide]
  omega

theorem NonSpaceHead_cons_ascii (c : Nat) (rest : GoString) (h : c < 0x80)
    (hs : asciiSpace c = false) : NonSpaceHead (c :: rest) := by
  refine ⟨by simp, ?_⟩
  rw [decodeRune_ascii c rest h, asciiSpace_IsSpace c h, hs]

/-- On a string that starts with an ASCII byte that is not a space, the second loop of
`TrimSpace` keeps a non-empty prefix. -/
theorem trimSpaceStopLoop_take (rev : List Nat) (b : Nat) (rest : GoString)
    (hrev : rev.reverse = b :: rest) (hb : b < 0x80) (hs : asciiSpace b = false) :
    ∃ k, 0 < k ∧ trimSpaceStopLoop rev = (b :: rest).take k := by
  induction rev generalizing rest with
  | nil => simp at hrev
  | cons c rev ih =>
    simp only [trimSpaceStopLoop]
    split
    · rw [hrev]
      exact TrimRightFunc_take _ (NonSpaceHead_cons_ascii b rest hb hs)
    · split
      · rw [hrev]
        exact ⟨(b :: rest).length, by simp, by simp⟩
      · rename_i hc1 hc2
        simp only [List.reverse_cons] at hrev
        match hr : rev.reverse with
        | [] =>
          rw [hr] at hrev
          simp only [List.nil_append, List.cons.injEq] at hrev
          rw [hrev.1] at hc2
          exact absurd hs hc2
        | b' :: rest' =>
          rw [hr] at hrev
          simp only [List.cons_append, List.cons.injEq] at hrev
          obtain ⟨k, hk, he⟩ := ih rest' (by rw [hr, hrev.1])
          refine ⟨min k (b :: rest').length, by simp; omega, ?_⟩
          rw [he, ← hrev.2, ← List.cons_append, List.take_append_of_le_length (by simp)]
          simp [List.take_take]

/-- The forward search of `indexFunc` for a rune that is not white space fails, or stops at
the start of such a rune. -/
theorem indexFuncLoop_spec (l : GoString) (skip i : Nat) :
    indexFuncLoop IsSpace false skip i l = -1 ∨
      ∃ j, indexFuncLoop IsSpace false skip i l = ((i + j : Nat) : Int) ∧
        NonSpaceHead (l.drop j) := by
  induction l generalizing skip i with
  | nil => left; simp [indexFuncLoop]
  | cons b rest ih =>
    cases skip with
    | zero =>
      simp only [indexFuncLoop]
      split
      · rename_i hsp
        right
        refine ⟨0, rfl, by simp, ?_⟩
        simpa using hsp
      · rcases ih ((decodeRune (b :: rest)).2 - 1) (i + 1) with h | ⟨j, h1, h2⟩
        · left; exact h
        · right
          exact ⟨j + 1, by rw [h1]; congr 1; omega, by simpa using h2⟩
    | succ skip =>
      simp only [indexFuncLoop]
      rcases ih skip (i + 1) with h | ⟨j, h1, h2⟩
      · left; exact h
      · right
        exact ⟨j + 1, by rw [h1]; congr 1; omega, by simpa using h2⟩

theorem TrimLeftFunc_head (s : GoString) :
    TrimLeftFunc s IsSpace = [] ∨ NonSpaceHead (TrimLeftFunc s IsSpace) := by
  unfold TrimLeftFunc indexFunc
  rcases indexFuncLoop_spec s 0 0 with h | ⟨j, h1, h2⟩
  · left; rw [if_pos h]
  · right
    rw [h1, if_neg (by omega)]
    simpa using h2

theorem TrimLeftFunc_of_NonSpaceHead (u : GoString) (h : NonSpaceHead u) :
    TrimLeftFunc u IsSpace = u := by
  match u, h with
  | b :: rest, h =>
    have h2 := h.2
    unfold TrimLeftFunc indexFunc
    simp only [indexFuncLoop, h2, beq_self_eq_true, if_true]
    simp

/-- The result of `TrimSpace` is empty or starts with a rune that is not white space. -/
theorem TrimSpace_head (x : GoString) : TrimSpace x = [] ∨ NonSpaceHead (TrimSpace x) := by
  induction x with
  | nil => left; rfl
  | cons c rest ih =>
    simp only [TrimSpace]
    split
    · unfold TrimFunc
      rcases TrimLeftFunc_head (c :: rest) with h | h
      · left; rw [h]; exact TrimRightFunc_nil
      · right
        obtain ⟨k, hk, he⟩ := TrimRightFunc_take _ h
        rw [he]
        exact NonSpaceHead_take _ k hk h
    · rename_i hc
      split
      · rename_i hs
        right
        obtain ⟨k, hk, he⟩ := trimSpaceStopLoop_take (c :: rest).reverse c rest (by simp)
          (by omega) hs
        rw [he]
        exact NonSpaceHead_take _ k hk (NonSpaceHead_cons_ascii c rest (by omega) hs)
      · exact ih

/-- On a string whose first rune is not white space, `TrimSpace` keeps a non-empty prefix. -/
theorem TrimSpace_take (u : GoString) (h : NonSpaceHead u) :
    ∃ k, 0 < k ∧ TrimSpace u = u.take k := by
  match u, h with
  | c :: rest, h =>
    simp only [TrimSpace]
    split
    · unfold TrimFunc
      rw [TrimLeftFunc_of_NonSpaceHead _ h]
      exact TrimRightFunc_take _ h
    · rename_i hc
      split
      · rename_i hs
        exact trimSpaceStopLoop_take (c :: rest).reverse c rest (by simp) (by omega) hs
      · rename_i hs
        exfalso
        have h2 := h.2
        rw [decodeRune_ascii c rest (by omega), asciiSpace_IsSpace c (by omega)] at h2
        exact hs h2

/-- Trimming a trimmed string keeps its first byte. -/
theorem TrimSpace_TrimSpace_head (x : GoString) :
    (TrimSpace (TrimSpace x)).head? = (TrimSpace x).head? := by
  rcases TrimSpace_head x with h | h
  · rw [h]; rfl
  · obtain ⟨k, hk, he⟩ := TrimSpace_take _ h
    rw [he]
    match TrimSpace x, k, hk with
    | [], _, _ => simp
    | b :: rest, k + 1, _ => simp

theorem beginsWithNoise_congr (s t : GoString) (h : s.head? = t.head?) :
    beginsWithNoise s = beginsWithNoise t := by
  match s, t, h with
  | [], [], _ => rfl
  | a :: s', b :: t', h =>
    simp only [List.head?_cons, Option.some.injEq] at h
    subst h
    simp [beginsWithNoise, HasPrefix]

theorem TrimPrefix_of_not_beginsWithNoise (t l : GoString) (h : beginsWithNoise t = false)
    (hl : l ∈ ngList) : TrimPrefix t l = t := by
  unfold beginsWithNoise at h
  simp only [Bool.or_eq_false_iff] at h
  unfold TrimPrefix
  simp only [ngList, List.mem_cons, List.mem_singleton, List.not_mem_nil, or_false] at hl
  rcases hl with rfl | rfl | rfl
  · rw [h.1.1]; rfl
  · rw [h.1.2]; rfl
  · rw [h.2]; rfl

/-- Once the trimmed string does not begin with a noise token, the rest of the pass leaves it
without one. -/
theorem cleanLoop_no_noise (ls : List GoString) (hls : ∀ l ∈ ls, l ∈ ngList) (x : GoString)
    (h : beginsWithNoise (TrimSpace x) = false) :
    beginsWithNoise (cleanLoop ls (TrimSpace x)) = false := by
  induction ls generalizing x with
  | nil => exact h
  | cons l ls ih =>
    simp only [cleanLoop]
    rw [TrimPrefix_of_not_beginsWithNoise _ l h (hls l (by simp))]
    apply ih (fun m hm => hls m (by simp [hm]))
    rw [beginsWithNoise_congr _ _ (TrimSpace_TrimSpace_head x)]
    exact h

theorem cleanLoop_append (xs ys : List GoString) (t : GoString) :
    cleanLoop (xs ++ ys) t = cleanLoop ys (cleanLoop xs t) := by
  induction xs generalizing t with
  | nil => rfl
  | cons l xs ih => simp only [List.cons_append, cleanLoop]; exact ih _

theorem cleanLoop_trimmed (ls : List GoString) (x : GoString) :
    ∃ y, cleanLoop ls (TrimSpace x) = TrimSpace y := by
  induction ls generalizing x with
  | nil => exact ⟨x, rfl⟩
  | cons l ls ih => simp only [cleanLoop]; exact ih _

/-- What the single pass of `cleanOldNewString` over the noise tokens backslash, colon,
semicolon does guarantee: when the string does not begin with a noise token after the first
`k` steps of the pass (for `k = 0`: the trimmed input does not), the result does not begin with
a backslash, a colon or a semicolon. -/
theorem cleanOldNewString_single_pass (s : GoString) (k : Nat)
    (h : beginsWithNoise (cleanLoop (ngList.take k) (TrimSpace s)) = false) :
    beginsWithNoise (cleanOldNewString s) = false := by
  unfold cleanOldNewString
  conv_lhs => rw [← List.take_append_drop k ngList, cleanLoop_append]
  obtain ⟨y, hy⟩ := cleanLoop_trimmed (ngList.take k) s
  rw [hy] at h ⊢
  exact cleanLoop_no_noise _ (fun l hl => List.mem_of_mem_drop hl) y h

/-- The guarantee of the single pass at the input ` : x `, which loses its colon in the second
step of the pass. -/
theorem cleanOldNewString_single_pass_witness :
    beginsWithNoise (cleanLoop (ngList.take 2) (TrimSpace (ofString " : x "))) = false ∧
    cleanOldNewString (ofString " : x ") = ofString "x" ∧
    beginsWithNoise (cleanOldNewString (ofString " : x ")) = false :=
  ⟨by decide, by decide, cleanOldNewString_single_pass (ofString " : x ") 2 (by decide)⟩

/-! ## Lemmas on the rune infos -/

/-- The span recorded for the kept rune of index `j`: the runes split as `pre ++ x :: post`
with `j` kept runes in `pre`, and the span of `x` starts where the encoding of `pre` ends and is
as long as the encoding of `x`. -/
theorem spansFrom_get (rs : List Nat) (hv : ∀ r ∈ rs, ValidRune r) (idx : Int) (j : Nat)
    (hj : j < (rs.filter kept).length) :
    ∃ pre x post, rs = pre ++ x :: post ∧ kept x = true ∧ (pre.filter kept).length = j ∧
      (spansFrom rs idx)[j]? =
        some { Start := idx + (encodeRunes pre).length
               End := idx + (encodeRunes pre).length + (encodeRune x).length } := by
  induction rs generalizing idx j with
  | nil => simp at hj
  | cons r rs ih =>
    have hr : RuneLen r = (encodeRune r).length := RuneLen_eq_length r (hv r (by simp))
    have hv' : ∀ x ∈ rs, ValidRune x := fun x hx => hv x (by simp [hx])
    by_cases hk : kept r = true
    · have hk' : (!isWhitespaceExceptNewline r) = true := hk
      have hs : spansFrom (r :: rs) idx =
          { Start := idx, End := idx + RuneLen r } :: spansFrom rs (idx + RuneLen r) := by
        simp only [spansFrom]; rw [if_pos hk']
      rw [List.filter_cons_of_pos hk, List.length_cons] at hj
      rw [hs]
      cases j with
      | zero =>
        refine ⟨[], r, rs, rfl, hk, rfl, ?_⟩
        simp [encodeRunes, hr]
      | succ j =>
        obtain ⟨pre, x, post, h1, h2, h3, h4⟩ := ih hv' (idx + RuneLen r) j (by omega)
        refine ⟨r :: pre, x, post, by simp [h1], h2, ?_, ?_⟩
        · rw [List.filter_cons_of_pos hk, List.length_cons, h3]
        · rw [List.getElem?_cons_succ, h4, encodeRunes_length_cons, hr]
          congr 2 <;> ring
    · have hk' : ¬(!isWhitespaceExceptNewline r) = true := hk
      have hs : spansFrom (r :: rs) idx = spansFrom rs (idx + RuneLen r) := by
        simp only [spansFrom]; rw [if_neg hk']
      rw [List.filter_cons_of_neg hk] at hj
      rw [hs]
      obtain ⟨pre, x, post, h1, h2, h3, h4⟩ := ih hv' (idx + RuneLen r) j hj
      refine ⟨r :: pre, x, post, by simp [h1], h2, ?_, ?_⟩
      · rw [List.filter_cons_of_neg hk, h3]
      · rw [h4, encodeRunes_length_cons, hr]
        congr 2 <;> ring

/-- The recorded spans do not overlap: an earlier span ends at or before the start of a later
one. -/
theorem spansFrom_sorted (rs : List Nat) (hv : ∀ r ∈ rs, ValidRune r) (idx : Int) (i j : Nat)
    (a b : RuneInfo) (hij : i < j) (hi : (spansFrom rs idx)[i]? = some a)
    (hj : (spansFrom rs idx)[j]? = some b) : a.End ≤ b.Start := by
  induction rs generalizing idx i j with
  | nil => simp [spansFrom] at hi
  | cons r rs ih =>
    have hv' : ∀ x ∈ rs, ValidRune x := fun x hx => hv x (by simp [hx])
    by_cases hk : (!isWhitespaceExceptNewline r) = true
    · simp only [spansFrom, if_pos hk] at hi hj
      cases j with
      | zero => omega
      | succ j =>
        simp only [List.getElem?_cons_succ] at hj
        cases i with
        | zero =>
          simp only [List.getElem?_cons_zero, Option.some.injEq] at hi
          subst hi
          have := spansFrom_bounds rs hv' (idx + RuneLen r) j j b b (le_refl _) hj hj
          exact this.1
        | succ i =>
          simp only [List.getElem?_cons_succ] at hi
          exact ih hv' (idx + RuneLen r) i j (by omega) hi hj
    · simp only [spansFrom, if_neg hk] at hi hj
      exact ih hv' (idx + RuneLen r) i j hij hi hj

theorem filter_getElem?_of_split (pre post : List Nat) (x : Nat) (hx : kept x = true) :
    ((pre ++ x :: post).filter kept)[(pre.filter kept).length]? = some x := by
  rw [List.filter_append, List.filter_cons_of_pos hx,
    List.getElem?_append_right (le_refl _), Nat.sub_self]
  simp

theorem goSlice_encodeRunes (pre post : List Nat) (x : Nat) :
    goSlice (encodeRunes (pre ++ x :: post)) ((encodeRunes pre).length : Int)
      ((encodeRunes pre).length + (encodeRune x).length : Int) = some (encodeRune x) := by
  unfold goSlice
  rw [encodeRunes_append, encodeRunes_cons]
  rw [if_pos (by simp only [List.length_append]; push_cast; omega)]
  congr 1
  have e1 : ((encodeRunes pre).length : Int).toNat = (encodeRunes pre).length := by simp
  have e2 : (((encodeRunes pre).length : Int) + ((encodeRune x).length : Int)).toNat -
      ((encodeRunes pre).length : Int).toNat = (encodeRune x).length := by omega
  rw [e2, e1, List.drop_left, List.take_left]

/-! ## The claims -/

/-- Claim C1: the matcher never panics, and it reports `ok = true` exactly when the normalized
pattern is non-empty and occurs as a contiguous run of characters at exactly one character index
of the normalized content; the content `x=1; x=1;` with pattern `x=1;` fails as non-unique. -/
theorem findMatch_ok_iff_unique_occurrence :
    (∀ c p : GoString, ∃ start stop ok,
      findMatchIgnoringWhitespaceEnhanced c p = some (start, stop, ok) ∧
      (ok = true ↔ removeWhitespace p ≠ [] ∧
        ∃! i, OccursAt (rangeRunes (removeWhitespace c)) (rangeRunes (removeWhitespace p)) i)) ∧
    findMatchIgnoringWhitespaceEnhanced (ofString "x=1; x=1;") (ofString "x=1;") =
      some (0, 0, false) := by
  refine ⟨fun c p => ?_, by decide⟩
  have hne : removeWhitespace p ≠ [] ↔ keptRunes p ≠ [] := by
    rw [removeWhitespace_eq, Ne, encodeRunes_eq_nil]
  rw [rangeRunes_removeWhitespace, rangeRunes_removeWhitespace, hne]
  rcases findMatch_cases c p with ⟨h1, h2⟩ | ⟨a, fi, la, hp, ho, hu, _, _, h1⟩
  · exact ⟨0, 0, false, h1, by simpa using h2⟩
  · exact ⟨fi.Start, la.End, true, h1, by
      simp only [true_iff]
      exact ⟨hp, a, ho, fun t ht => hu t ht⟩⟩

/-- Claim C2 (amended): on valid UTF-8 content, the byte slice of a successful match, after
whitespace-stripping, equals the whitespace-stripped pattern; for the content
`foo\n  bar\nbaz` and the pattern `foo\nbar` the result is `(0, 9, true)`, the span is
`foo\n  bar`, and replacing it by `qux` yields `qux\nbaz`. -/
theorem findMatch_span_strips_to_pattern (c p : GoString) (hv : ValidString c = true)
    (start stop : Int)
    (h : findMatchIgnoringWhitespaceEnhanced c p = some (start, stop, true)) :
    (∃ span, goSlice c start stop = some span ∧ removeWhitespace span = removeWhitespace p) ∧
    (findMatchIgnoringWhitespaceEnhanced (ofString "foo\n  bar\nbaz") (ofString "foo\nbar") =
        some (0, 9, true) ∧
      goSlice (ofString "foo\n  bar\nbaz") 0 9 = some (ofString "foo\n  bar") ∧
      (ofString "foo\n  bar\nbaz").take 0 ++ ofString "qux" ++
        (ofString "foo\n  bar\nbaz").drop 9 = ofString "qux\nbaz") := by
  refine ⟨?_, by decide, by decide, by decide⟩
  obtain ⟨pre, mid, post, hc, hmv, _, hmid, _, hs, he⟩ := findMatch_valid_decomp c p hv start stop h
  refine ⟨encodeRunes mid, ?_, ?_⟩
  · unfold goSlice
    have hlen : (c.length : Int) =
        (encodeRunes pre).length + (encodeRunes mid).length + (encodeRunes post).length := by
      rw [hc]; simp only [List.length_append]; push_cast; rfl
    rw [if_pos (by omega)]
    congr 1
    have e1 : start.toNat = (encodeRunes pre).length := by omega
    have e2 : stop.toNat - start.toNat = (encodeRunes mid).length := by omega
    rw [e2, e1, hc, List.append_assoc, List.drop_left, List.take_left]
  · rw [removeWhitespace_eq, removeWhitespace_eq, keptRunes, rangeRunes_encodeRunes mid hmv, hmid]

/-- Witness for claim C2 at the content `foo\n  bar\nbaz` and the pattern `foo\nbar`. -/
theorem findMatch_span_strips_to_pattern_witness :
    ValidString (ofString "foo\n  bar\nbaz") = true ∧
    findMatchIgnoringWhitespaceEnhanced (ofString "foo\n  bar\nbaz") (ofString "foo\nbar") =
      some (0, 9, true) ∧
    ∃ span, goSlice (ofString "foo\n  bar\nbaz") 0 9 = some span ∧
      removeWhitespace span = removeWhitespace (ofString "foo\nbar") :=
  ⟨by decide, by decide,
    (findMatch_span_strips_to_pattern (ofString "foo\n  bar\nbaz") (ofString "foo\nbar")
      (by decide) 0 9 (by decide)).1⟩

/-- Counterexample to claim C2 as stated: for the content `foo\n  bar\nbaz` and the pattern
`foo\nbar` the matcher does not return `(0, 10, true)`; it returns `(0, 9, true)`, and splicing
at `10` would drop the newline before `baz`. -/
theorem findMatch_scenario_not_zero_ten :
    findMatchIgnoringWhitespaceEnhanced (ofString "foo\n  bar\nbaz") (ofString "foo\nbar") ≠
      some (0, 10, true) ∧
    (ofString "foo\n  bar\nbaz").take 0 ++ ofString "qux" ++
      (ofString "foo\n  bar\nbaz").drop 10 ≠ ofString "qux\nbaz" := by
  decide

/-- Claim C3: on valid UTF-8 content, the offsets of a successful match satisfy
`0 ≤ start ≤ stop ≤ len(c)` and both lie on character boundaries of the content. -/
theorem findMatch_offsets_on_char_boundaries (c p : GoString) (hv : ValidString c = true)
    (start stop : Int)
    (h : findMatchIgnoringWhitespaceEnhanced c p = some (start, stop, true)) :
    0 ≤ start ∧ start ≤ stop ∧ stop ≤ c.length ∧ OnCharBoundary c start ∧
      OnCharBoundary c stop := by
  obtain ⟨pre, mid, post, hc, _, _, _, _, hs, he⟩ := findMatch_valid_decomp c p hv start stop h
  have hlen : (c.length : Int) =
      (encodeRunes pre).length + (encodeRunes mid).length + (encodeRunes post).length := by
    rw [hc]; simp only [List.length_append]; push_cast; rfl
  refine ⟨by omega, by omega, by omega, ?_, ?_⟩
  · have := OnCharBoundary_encodeRunes pre (mid ++ post)
    rw [encodeRunes_append, encodeRunes_append, ← List.append_assoc, ← hc, ← hs] at this
    exact this
  · have := OnCharBoundary_encodeRunes (pre ++ mid) post
    rw [encodeRunes_append, encodeRunes_append] at this
    rw [← hc] at this
    have e : (((encodeRunes pre ++ encodeRunes mid).length : Nat) : Int) = stop := by
      rw [he]; simp only [List.length_append]; push_cast; rfl
    rw [e] at this
    exact this

/-- Witness for claim C3 on content with multi-byte characters. -/
theorem findMatch_offsets_on_char_boundaries_witness :
    ValidString (ofString "日本 語 x") = true ∧
    findMatchIgnoringWhitespaceEnhanced (ofString "日本 語 x") (ofString "本語") =
      some (3, 10, true) ∧
    ((0 : Int) ≤ 3 ∧ (3 : Int) ≤ 10 ∧ (10 : Int) ≤ (ofString "日本 語 x").length ∧
      OnCharBoundary (ofString "日本 語 x") 3 ∧ OnCharBoundary (ofString "日本 語 x") 10) :=
  ⟨by decide, by decide,
    findMatch_offsets_on_char_boundaries (ofString "日本 語 x") (ofString "本語") (by decide)
      3 10 (by decide)⟩

/-- Claim C10: normalization is a fixed point on its own output: normalizing the normalized
string again returns it unchanged, both through `removeWhitespace` and through the stripped
string of `buildIndexMapEnhanced`. -/
theorem removeWhitespace_fixed_point (s : GoString) :
    removeWhitespace (removeWhitespace s) = removeWhitespace s ∧
      (buildIndexMapEnhanced (removeWhitespace s)).1 = removeWhitespace s := by
  have hk : keptRunes (removeWhitespace s) = keptRunes s := by
    rw [keptRunes, rangeRunes_removeWhitespace, keptRunes, List.filter_filter]
    simp
  constructor
  · rw [removeWhitespace_eq (removeWhitespace s), hk, removeWhitespace_eq]
  · rw [buildIndexMapEnhanced_eq, hk, removeWhitespace_eq]

/-- Claim C9: normalization never removes a newline or carriage return, and a pattern that
differs from the buffer only in where its newline characters are placed does not match: when
the normalized forms are equal after deleting all newline and carriage-return characters, the
two strings hold the same number of them, and the normalized forms differ, the matcher returns
`ok = false`. -/
theorem findMatch_newline_placement_mismatch (b p : GoString)
    (hdel : deleteNewlines (removeWhitespace b) = deleteNewlines (removeWhitespace p))
    (hcnt : countNewlines b = countNewlines p)
    (hne : removeWhitespace b ≠ removeWhitespace p) :
    (isWhitespaceExceptNewline 0x0A = false ∧ isWhitespaceExceptNewline 0x0D = false) ∧
    countNewlines (removeWhitespace b) = countNewlines b ∧
    ∃ start stop, findMatchIgnoringWhitespaceEnhanced b p = some (start, stop, false) := by
  refine ⟨by decide, countNewlines_removeWhitespace b, ?_⟩
  rcases findMatch_cases b p with ⟨h1, _⟩ | ⟨a, fi, la, hp, ho, _, _, _, _⟩
  · exact ⟨0, 0, h1⟩
  · exfalso
    apply hne
    obtain ⟨Y, hY⟩ := ho
    have hK : keptRunes b = (keptRunes b).take a ++ keptRunes p ++ Y := by
      rw [List.append_assoc, hY, List.take_append_drop]
    have hE : removeWhitespace b =
        encodeRunes ((keptRunes b).take a) ++ removeWhitespace p ++ encodeRunes Y := by
      rw [removeWhitespace_eq, removeWhitespace_eq, ← encodeRunes_append, ← encodeRunes_append,
        ← hK]
    have hc := countNewlines_removeWhitespace b
    have hc' := countNewlines_removeWhitespace p
    rw [hE, countNewlines_append, countNewlines_append] at hc
    rw [hE, deleteNewlines_append, deleteNewlines_append] at hdel
    have hl := congrArg List.length hdel
    simp only [List.length_append] at hl
    have hX : encodeRunes ((keptRunes b).take a) = [] :=
      eq_nil_of_newline_free_and_only _ (List.length_eq_zero.mp (by omega)) (by omega)
    have hY' : encodeRunes Y = [] :=
      eq_nil_of_newline_free_and_only _ (List.length_eq_zero.mp (by omega)) (by omega)
    rw [hE, hX, hY']
    simp

/-- Witness for claim C9: the buffer `a\nb c` and the pattern `ab\nc`. -/
theorem findMatch_newline_placement_mismatch_witness :
    deleteNewlines (removeWhitespace (ofString "a\nb c")) =
      deleteNewlines (removeWhitespace (ofString "ab\nc")) ∧
    countNewlines (ofString "a\nb c") = countNewlines (ofString "ab\nc") ∧
    removeWhitespace (ofString "a\nb c") ≠ removeWhitespace (ofString "ab\nc") ∧
    ∃ start stop, findMatchIgnoringWhitespaceEnhanced (ofString "a\nb c") (ofString "ab\nc") =
      some (start, stop, false) :=
  ⟨by decide, by decide, by decide,
    (findMatch_newline_placement_mismatch (ofString "a\nb c") (ofString "ab\nc") (by decide)
      (by decide) (by decide)).2.2⟩

/-- Claim C8: in each of `createNewFile`, `deleteContent` and `replaceContent` the trace only
grows, a file write is attempted only after the permission request has returned true, the
history and the timestamps are updated only after a successful write, a denied request makes
the transaction return `permission.ErrorPermissionDenied` with no write and no update, and a
failed write is followed by no update; a denied creation on the empty world requests permission
and stops. -/
theorem transactions_write_discipline (env : Env) (w : World) (filePath : String)
    (content oldString newString : GoString) :
    ((createNewFile env w filePath content).trace =
        w.trace ++ (createNewFile env w filePath content).effects w ∧
      Discipline ((createNewFile env w filePath content).effects w)
        (createNewFile env w filePath content).result) ∧
    ((deleteContent env w filePath oldString).trace =
        w.trace ++ (deleteContent env w filePath oldString).effects w ∧
      Discipline ((deleteContent env w filePath oldString).effects w)
        (deleteContent env w filePath oldString).result) ∧
    ((replaceContent env w filePath oldString newString).trace =
        w.trace ++ (replaceContent env w filePath oldString newString).effects w ∧
      Discipline ((replaceContent env w filePath oldString newString).effects w)
        (replaceContent env w filePath oldString newString).result) ∧
    ((createNewFile sampleEnv { emptyWorld with permit := fun _ => false } "/w/a.txt"
        (ofString "hello")).result = some ({}, some GoError.ErrorPermissionDenied) ∧
      (createNewFile sampleEnv { emptyWorld with permit := fun _ => false } "/w/a.txt"
        (ofString "hello")).trace =
        [Event.stat "/w/a.txt", Event.mkdirAll "/w" true,
          Event.permissionRequest
            (permissionRequest sampleEnv "/w/a.txt" "Create file /w/a.txt" "") false]) :=
  ⟨createNewFile_discipline env w filePath content,
    deleteContent_discipline env w filePath oldString,
    replaceContent_discipline env w filePath oldString newString, by decide, by decide⟩

/-- Claim C5 (failing input): on the empty world the request with an empty old string and new
string `hello` creates the file, and `Run` then goes on to `replaceContent` on the same
request, so that the successful creation is reported as the error response of the failed
replacement; likewise a successful deletion is followed by `replaceContent`. -/
theorem Run_falls_through_after_success :
    (createNewFile sampleEnv emptyWorld "/w/a.txt" (ofString "hello")).result =
      some (WithResponseMetadata (NewTextResponse "File created: /w/a.txt")
        { Diff := "", Additions := 0, Removals := 0 }, none) ∧
    (Run sampleEnv emptyWorld
        (some { FilePath := "a.txt", OldString := [], NewString := ofString "hello" })).result =
      some (NewTextErrorResponse
        "old_string not found in file when ignoring whitespace differences", none) ∧
    (Run sampleEnv emptyWorld
        (some { FilePath := "a.txt", OldString := [], NewString := ofString "hello" })).trace =
      [Event.stat "/w/a.txt", Event.mkdirAll "/w" true,
        Event.permissionRequest
          (permissionRequest sampleEnv "/w/a.txt" "Create file /w/a.txt" "") true,
        Event.writeFile "/w/a.txt" (ofString "hello") true,
        Event.historyCreate "s" "/w/a.txt" [] true,
        Event.historyCreateVersion "s" "/w/a.txt" (ofString "hello") true,
        Event.recordFileWrite "/w/a.txt", Event.recordFileRead "/w/a.txt",
        Event.stat "/w/a.txt", Event.readFile "/w/a.txt" true] ∧
    (deleteContent sampleEnv (worldWithFile (ofString "x y z")) "/w/a.txt"
        (ofString "y")).result =
      some (WithResponseMetadata (NewTextResponse "Content deleted from file: /w/a.txt")
        { Diff := "", Additions := 0, Removals := 0 }, none) ∧
    (Run sampleEnv (worldWithFile (ofString "x y z"))
        (some { FilePath := "a.txt", OldString := ofString "y", NewString := [] })).result =
      some (NewTextErrorResponse
        "old_string not found in file when ignoring whitespace differences", none) := by
  refine ⟨by decide, by decide, by decide, by decide, by decide⟩

/-- Claim C6: on a file with a fresh recorded read whose content `c` has the unique match
`(start, stop)` within range, `replaceContent` returns the error response
`new content is the same as old content. No changes made.` exactly when the computed content
`c[:start] + n + c[stop:]` equals `c`, which holds exactly when `n` is the matched span
`c[start:stop]`; the rejected edit performs `os.Stat` and `os.ReadFile` only, so no permission
request and no file write. -/
theorem replaceContent_noop_rejection (env : Env) (w : World) (filePath : String)
    (oldString newString c : GoString) (start stop : Int) (info : FileInfo)
    (hstat : w.Stat filePath = StatResult.ok info) (hdir : info.IsDir = false)
    (hread : w.getLastReadTime filePath ≠ 0)
    (hfresh : info.ModTime ≤ w.getLastReadTime filePath) (hc : w.ReadFile filePath = some c)
    (hm : findMatchIgnoringWhitespaceEnhanced c oldString = some (start, stop, true))
    (hstop : stop ≤ c.length) :
    ∃ before span after, goSlice c 0 start = some before ∧ goSlice c start stop = some span ∧
      goSlice c stop c.length = some after ∧
      ((replaceContent env w filePath oldString newString).result =
          some (NewTextErrorResponse "new content is the same as old content. No changes made.",
            none) ↔
        before ++ newString ++ after = c) ∧
      (before ++ newString ++ after = c ↔ newString = span) ∧
      (newString = span →
        (replaceContent env w filePath oldString newString).effects w =
          [Event.stat filePath, Event.readFile filePath true]) := by
  have hb := findMatch_start_lt_stop c oldString start stop hm
  have h1 := goSlice_prefix c start hb.1 (by omega)
  have h2 := goSlice_middle c start stop hb.1 (by omega) hstop
  have h3 := goSlice_suffix c stop (by omega) hstop
  have hl := locateMatch_found env w filePath oldString c start stop info hstat hdir hread hfresh
    hc hm
  have hiff : c.take start.toNat ++ newString ++ c.drop stop.toNat = c ↔
      newString = (c.drop start.toNat).take (stop.toNat - start.toNat) := by
    constructor
    · intro h
      have h' := h.trans h2.2
      simp only [List.append_assoc] at h'
      exact List.append_cancel_right (List.append_cancel_left h')
    · intro h
      rw [h]; exact h2.2.symm
  refine ⟨_, _, _, h1, h2.1, h3, ?_, hiff, ?_⟩
  · unfold replaceContent
    rw [hl]
    simp only [h1, h3]
    by_cases he : c = c.take start.toNat ++ newString ++ c.drop stop.toNat
    · rw [if_pos he]
      simp only [Outcome.result, true_iff]
      exact he.symm
    · rw [if_neg he]
      constructor
      · intro h
        have := applyEdit_result_not_error _ _ _ _ _ _ _ _ h
        simp [NewTextErrorResponse] at this
      · intro h
        exact absurd h.symm he
  · intro hn
    have he : c = c.take start.toNat ++ newString ++ c.drop stop.toNat := (hiff.mpr hn).symm
    unfold replaceContent
    rw [hl]
    simp only [h1, h3]
    rw [if_pos he]
    apply effects_of_trace
    simp [Outcome.trace, Outcome.world]

/-- Witness for claim C6: replacing `y` by `y` in the file `x y z`. -/
theorem replaceContent_noop_rejection_witness :
    (replaceContent sampleEnv (worldWithFile (ofString "x y z")) "/w/a.txt" (ofString "y")
        (ofString "y")).result =
      some (NewTextErrorResponse "new content is the same as old content. No changes made.",
        none) ∧
    ∃ before span after, goSlice (ofString "x y z") 0 2 = some before ∧
      goSlice (ofString "x y z") 2 3 = some span ∧
      goSlice (ofString "x y z") 3 (ofString "x y z").length = some after ∧
      ((replaceContent sampleEnv (worldWithFile (ofString "x y z")) "/w/a.txt" (ofString "y")
          (ofString "y")).result =
          some (NewTextErrorResponse "new content is the same as old content. No changes made.",
            none) ↔
        before ++ ofString "y" ++ after = ofString "x y z") ∧
      (before ++ ofString "y" ++ after = ofString "x y z" ↔ ofString "y" = span) ∧
      (ofString "y" = span →
        (replaceContent sampleEnv (worldWithFile (ofString "x y z")) "/w/a.txt" (ofString "y")
          (ofString "y")).effects (worldWithFile (ofString "x y z")) =
          [Event.stat "/w/a.txt", Event.readFile "/w/a.txt" true]) :=
  ⟨by decide,
    replaceContent_noop_rejection sampleEnv (worldWithFile (ofString "x y z")) "/w/a.txt"
      (ofString "y") (ofString "y") (ofString "x y z") 2 3 { IsDir := false, ModTime := 1 }
      (by decide) rfl (by decide) (by decide) (by decide) (by decide) (by decide)⟩

/-- Claim C7: for `deleteContent` and `replaceContent` on a path that exists and is not a
directory, when no read time is recorded or the modification time is strictly after the
recorded read time, the transaction returns an error response with a nil Go error in the world
changed by `os.Stat` alone (no read, no permission request, no write, no history or timestamp
update); when the modification time equals a recorded read time the file is read. -/
theorem staleness_guard (env : Env) (w : World) (filePath : String)
    (oldString newString : GoString) (info : FileInfo)
    (hstat : w.Stat filePath = StatResult.ok info) (hdir : info.IsDir = false) :
    ((w.getLastReadTime filePath = 0 ∨ info.ModTime > w.getLastReadTime filePath) →
      deleteContent env w filePath oldString =
          Outcome.ret (NewTextErrorResponse (guardMessage env w filePath info)) none
            (w.emit (Event.stat filePath)) ∧
        replaceContent env w filePath oldString newString =
          Outcome.ret (NewTextErrorResponse (guardMessage env w filePath info)) none
            (w.emit (Event.stat filePath)) ∧
        (deleteContent env w filePath oldString).effects w = [Event.stat filePath] ∧
        (replaceContent env w filePath oldString newString).effects w =
          [Event.stat filePath]) ∧
    (w.getLastReadTime filePath ≠ 0 → info.ModTime = w.getLastReadTime filePath →
      ∃ ok1 ok2 rest1 rest2,
        (deleteContent env w filePath oldString).effects w =
          Event.stat filePath :: Event.readFile filePath ok1 :: rest1 ∧
        (replaceContent env w filePath oldString newString).effects w =
          Event.stat filePath :: Event.readFile filePath ok2 :: rest2) := by
  constructor
  · intro hstale
    have hl := locateMatch_stale env w filePath oldString info hstat hdir hstale
    have hd : deleteContent env w filePath oldString =
        Outcome.ret (NewTextErrorResponse (guardMessage env w filePath info)) none
          (w.emit (Event.stat filePath)) := by
      unfold deleteContent; rw [hl]
    have hr : replaceContent env w filePath oldString newString =
        Outcome.ret (NewTextErrorResponse (guardMessage env w filePath info)) none
          (w.emit (Event.stat filePath)) := by
      unfold replaceContent; rw [hl]
    refine ⟨hd, hr, ?_, ?_⟩
    · rw [hd]; exact effects_of_trace _ _ _ rfl
    · rw [hr]; exact effects_of_trace _ _ _ rfl
  · intro hread heq
    obtain ⟨ok1, h1⟩ := locateMatch_fresh env w filePath oldString info hstat hdir hread
      (le_of_eq heq)
    obtain ⟨rest1, hd⟩ := deleteContent_effects_split env w filePath oldString _ h1
    obtain ⟨rest2, hr⟩ := replaceContent_effects_split env w filePath oldString newString _ h1
    exact ⟨ok1, ok1, rest1, rest2, hd, hr⟩

/-- Witness for claim C7: a file never read, a file modified after its last read, and a file
whose modification time equals its last read time. -/
theorem staleness_guard_witness :
    (replaceContent sampleEnv unreadWorld "/w/a.txt" (ofString "y") (ofString "q")).result =
      some (NewTextErrorResponse
        "you must read the file before editing it. Use the View tool first", none) ∧
    (deleteContent sampleEnv staleWorld "/w/a.txt" (ofString "y") =
        Outcome.ret
          (NewTextErrorResponse
            (guardMessage sampleEnv staleWorld "/w/a.txt" { IsDir := false, ModTime := 5 }))
          none (staleWorld.emit (Event.stat "/w/a.txt")) ∧
      replaceContent sampleEnv staleWorld "/w/a.txt" (ofString "y") (ofString "q") =
        Outcome.ret
          (NewTextErrorResponse
            (guardMessage sampleEnv staleWorld "/w/a.txt" { IsDir := false, ModTime := 5 }))
          none (staleWorld.emit (Event.stat "/w/a.txt")) ∧
      (deleteContent sampleEnv staleWorld "/w/a.txt" (ofString "y")).effects staleWorld =
        [Event.stat "/w/a.txt"] ∧
      (replaceContent sampleEnv staleWorld "/w/a.txt" (ofString "y")
        (ofString "q")).effects staleWorld = [Event.stat "/w/a.txt"]) ∧
    (∃ ok1 ok2 rest1 rest2,
      (deleteContent sampleEnv freshWorld "/w/a.txt" (ofString "y")).effects freshWorld =
        Event.stat "/w/a.txt" :: Event.readFile "/w/a.txt" ok1 :: rest1 ∧
      (replaceContent sampleEnv freshWorld "/w/a.txt" (ofString "y")
        (ofString "q")).effects freshWorld =
        Event.stat "/w/a.txt" :: Event.readFile "/w/a.txt" ok2 :: rest2) :=
  ⟨by decide,
    (staleness_guard sampleEnv staleWorld "/w/a.txt" (ofString "y") (ofString "q")
      { IsDir := false, ModTime := 5 } (by decide) rfl).1 (Or.inr (by decide)),
    (staleness_guard sampleEnv freshWorld "/w/a.txt" (ofString "y") (ofString "q")
      { IsDir := false, ModTime := 5 } (by decide) rfl).2 (by decide) (by decide)⟩

/-- Claim C4 (failing inputs): the result of `cleanOldNewString` can begin with a noise token:
the pass strips each token once, in the order backslash, colon, semicolon, so a repeated
backslash and a colon after a semicolon survive it. -/
theorem cleanOldNewString_keeps_noise :
    cleanOldNewString (ofString "\\\\") = ofString "\\" ∧
    beginsWithNoise (cleanOldNewString (ofString "\\\\")) = true ∧
    cleanOldNewString (ofString ";:") = ofString ":" ∧
    beginsWithNoise (cleanOldNewString (ofString ";:")) = true := by
  decide

/-- Claim C11: on valid UTF-8 content, `buildIndexMapEnhanced` returns the content with exactly
the characters that are white space other than newline and carriage return removed, in order
(which is `removeWhitespace` of the content), with one rune info per character of the stripped
string; the rune info of index `i` is the byte range in the content of the character that became
character `i` of the stripped string, the slice of the content at that range is the UTF-8
encoding of the character, and the ranges are non-empty, increasing and do not overlap. -/
theorem buildIndexMapEnhanced_spec (c : GoString) (hv : ValidString c = true) :
    c = encodeRunes (rangeRunes c) ∧
    (buildIndexMapEnhanced c).1 =
      encodeRunes ((rangeRunes c).filter fun r => !isWhitespaceExceptNewline r) ∧
    (buildIndexMapEnhanced c).1 = removeWhitespace c ∧
    (buildIndexMapEnhanced c).2.length = (rangeRunes (buildIndexMapEnhanced c).1).length ∧
    (∀ (i : Nat) (info : RuneInfo), (buildIndexMapEnhanced c).2[i]? = some info →
      ∃ pre r post, rangeRunes c = pre ++ r :: post ∧ isWhitespaceExceptNewline r = false ∧
        (pre.filter fun x => !isWhitespaceExceptNewline x).length = i ∧
        (rangeRunes (buildIndexMapEnhanced c).1)[i]? = some r ∧
        info.Start = ((encodeRunes pre).length : Int) ∧
        info.End = info.Start + ((encodeRune r).length : Int) ∧
        goSlice c info.Start info.End = some (encodeRune r) ∧ info.Start < info.End) ∧
    (∀ (i j : Nat) (a b : RuneInfo), i < j → (buildIndexMapEnhanced c).2[i]? = some a →
      (buildIndexMapEnhanced c).2[j]? = some b → a.End ≤ b.Start) := by
  have hc := ValidString_eq_encodeRunes c hv
  have hb := buildIndexMapEnhanced_eq c
  have hr : rangeRunes (buildIndexMapEnhanced c).1 = keptRunes c := by
    rw [hb]; exact rangeRunes_encodeRunes _ (keptRunes_valid c)
  refine ⟨hc, by rw [hb]; rfl, by rw [hb, removeWhitespace_eq], ?_, ?_, ?_⟩
  · rw [hr, hb]; exact spansFrom_length _ _
  · intro i info hi
    rw [hb] at hi
    dsimp only at hi
    have hlt : i < ((rangeRunes c).filter kept).length := by
      rw [← spansFrom_length (rangeRunes c) 0]
      exact (List.getElem?_eq_some_iff.mp hi).1
    obtain ⟨pre, x, post, h1, h2, h3, h4⟩ :=
      spansFrom_get (rangeRunes c) (rangeRunes_valid c) 0 i hlt
    rw [hi] at h4
    simp only [Option.some.injEq] at h4
    subst h4
    have hpos := encodeRune_length_pos x
    refine ⟨pre, x, post, h1, by simpa [kept] using h2, h3, ?_, by simp, by simp, ?_,
      by dsimp only; omega⟩
    · rw [hr, keptRunes, h1, ← h3]
      exact filter_getElem?_of_split pre post x h2
    · have := goSlice_encodeRunes pre post x
      rw [← h1, ← hc] at this
      simpa using this
  · intro i j a b hij hi hj
    rw [hb] at hi hj
    exact spansFrom_sorted (rangeRunes c) (rangeRunes_valid c) 0 i j a b hij hi hj

/-- Witness for claim C11 on content with multi-byte characters and white space. -/
theorem buildIndexMapEnhanced_spec_witness :
    ValidString (ofString "日 本\n\tx") = true ∧
    buildIndexMapEnhanced (ofString "日 本\n\tx") =
      (ofString "日本\nx",
        [{ Start := 0, End := 3 }, { Start := 4, End := 7 }, { Start := 7, End := 8 },
          { Start := 9, End := 10 }]) ∧
    (buildIndexMapEnhanced (ofString "日 本\n\tx")).1 = removeWhitespace (ofString "日 本\n\tx") ∧
    (buildIndexMapEnhanced (ofString "日 本\n\tx")).2.length =
      (rangeRunes (buildIndexMapEnhanced (ofString "日 本\n\tx")).1).length :=
  ⟨by decide, by decide,
    (buildIndexMapEnhanced_spec (ofString "日 本\n\tx") (by decide)).2.2.1,
    (buildIndexMapEnhanced_spec (ofString "日 本\n\tx") (by decide)).2.2.2.1⟩

/-- Claim C12 (failing input): on the content with bytes `E9 61 62 63` (Latin-1 `éabc`, not
valid UTF-8) and the pattern `abc` the matcher returns `(3, 6, true)` although the content has
4 bytes, so the slice `oldContent[6:]` is out of range and `deleteContent` and `replaceContent`
panic. -/
theorem findMatch_offsets_out_of_range :
    ValidString [0xE9, 0x61, 0x62, 0x63] = false ∧
    findMatchIgnoringWhitespaceEnhanced [0xE9, 0x61, 0x62, 0x63] (ofString "abc") =
      some (3, 6, true) ∧
    ([0xE9, 0x61, 0x62, 0x63] : GoString).length = 4 ∧
    goSlice [0xE9, 0x61, 0x62, 0x63] 6 4 = none ∧
    (deleteContent sampleEnv (worldWithFile [0xE9, 0x61, 0x62, 0x63]) "/w/a.txt"
      (ofString "abc")).result = none ∧
    (replaceContent sampleEnv (worldWithFile [0xE9, 0x61, 0x62, 0x63]) "/w/a.txt"
      (ofString "abc") (ofString "x")).result = none := by
  decide

end Cap
